import Mathlib

set_option maxRecDepth 40000
set_option allowUnsafeReducibility true
attribute [local semireducible] Rat.add Rat.sub Rat.mul Rat.inv Rat.div

/-!
Verification development for the event/candidate detection and selection core:
path-A run detection and segment post-processing (analyze_y2_events.py),
path-B window scoring (build_candidates_20s.py), the JSONL ledger store
(common_win.py / pick_from_candidates.py) and the global picker
(pick_global_candidates_win.py).  Python floats are embedded as exact
rationals, machine integers as Int/Nat; dictionary rows become structures
with optional fields.
-/

/-! ## Path A: delta computation and run detection (analyze_y2_events.py) -/

/-- Tail of compute_delta: each entry gets deltaY = meanY - previous meanY. -/
def computeDeltaGo : List (Int × ℚ) → ℚ → List (Int × ℚ × ℚ)
  | [], _ => []
  | (sec, y) :: rest, prev => (sec, y, y - prev) :: computeDeltaGo rest y

/-- compute_delta: rows (sec, meanY) to (sec, meanY, deltaY); the first row gets delta 0. -/
def compute_delta : List (Int × ℚ) → List (Int × ℚ × ℚ)
  | [] => []
  | (sec, y) :: rest => (sec, y, 0) :: computeDeltaGo rest y

/-- The moving flag per entry: abs(deltaY) >= dy_threshold. -/
def movingOf (dyTh : ℚ) (rows : List (Int × ℚ × ℚ)) : List (Int × Bool) :=
  rows.map fun r => (r.1, decide (|r.2.2| ≥ dyTh))

/-- Close a run that started at rs: end_exclusive is last_sec+1 (or rs+1 when
last_sec is unset); keep it only when its span is at least min_len_sec. -/
def closeRun (minLen : Int) (rs : Int) (lastSec : Option Int) : List (Int × Int) :=
  let re := match lastSec with | some ls => ls + 1 | none => rs + 1
  if re - rs ≥ minLen then [(rs, re)] else []

/-- The scan loop of detect_hits_4sec: state is (run_start, last_sec). -/
def detectGo (minLen : Int) : List (Int × Bool) → Option Int → Option Int → List (Int × Int)
  | [], none, _ => []
  | [], some rs, lastSec => closeRun minLen rs lastSec
  | (sec, mv) :: rest, runStart, lastSec =>
    if mv then detectGo minLen rest (some (runStart.getD sec)) (some sec)
    else
      match runStart with
      | none => detectGo minLen rest none none
      | some rs => closeRun minLen rs lastSec ++ detectGo minLen rest none none

/-- detect_hits_4sec: runs of consecutive moving entries with span >= min_len_sec. -/
def detect_hits_4sec (deltaRows : List (Int × ℚ × ℚ)) (dyTh : ℚ) (minLen : Int) :
    List (Int × Int) :=
  detectGo minLen (movingOf dyTh deltaRows) none none

/-- The seconds of the leading all-active block of l, defaulting the last to d. -/
def blockLast (l : List (Int × Bool)) (d : Int) : Int :=
  (((l.takeWhile fun p => p.2).map fun p => p.1).getLast?).getD d

/-- Fuel-driven worker for activeRuns; the fuel only needs to cover the list length. -/
def activeRunsF : Nat → List (Int × Bool) → List (Int × Int)
  | 0, _ => []
  | _, [] => []
  | fuel + 1, (sec, b) :: rest =>
    if b then
      (sec, blockLast rest sec + 1) :: activeRunsF fuel (rest.dropWhile fun p => p.2)
    else activeRunsF fuel rest

/-- Reference semantics for run extraction: maximal blocks of entries that are
consecutive in the input list and flagged active; each block becomes the
interval [first second, last second + 1). -/
def activeRuns (l : List (Int × Bool)) : List (Int × Int) :=
  activeRunsF l.length l

/-- Reference run detection: adjacency-in-list blocks filtered by span. -/
def detectSpec (deltaRows : List (Int × ℚ × ℚ)) (dyTh : ℚ) (minLen : Int) :
    List (Int × Int) :=
  (activeRuns (movingOf dyTh deltaRows)).filter fun p => p.2 - p.1 ≥ minLen

/-! ## Path A: segment post-processing (analyze_y2_events.py) -/

/-- hits_to_segments_15s: pre-roll and fixed target length, clipped to duration. -/
def hits_to_segments_15s (hits : List (Int × Int)) (preSec segLen duration : Int) :
    List (Int × Int) :=
  hits.filterMap fun h =>
    let start := max (h.1 - preSec) 0
    let e := min (start + segLen) duration
    if e > start then some (start, e) else none

/-- Lexicographic order on segments, as Python sorts (start, end) tuples. -/
def pairLe (a b : Int × Int) : Bool :=
  a.1 < b.1 || (a.1 == b.1 && a.2 ≤ b.2)

def insertPair (x : Int × Int) : List (Int × Int) → List (Int × Int)
  | [] => [x]
  | y :: ys => if pairLe x y then x :: y :: ys else y :: insertPair x ys

/-- Stable sort of segments by (start, end), modelling Python sorted(events). -/
def sortSegs : List (Int × Int) → List (Int × Int)
  | [] => []
  | x :: xs => insertPair x (sortSegs xs)

/-- The merge loop of merge_overlaps: the accumulator keeps the last merged segment. -/
def mergeGo (cur : Int × Int) : List (Int × Int) → List (Int × Int)
  | [] => [cur]
  | (s, e) :: rest =>
    if s ≤ cur.2 then mergeGo (cur.1, max cur.2 e) rest
    else cur :: mergeGo (s, e) rest

/-- merge_overlaps: merge overlapping or touching segments after sorting. -/
def merge_overlaps (segs : List (Int × Int)) : List (Int × Int) :=
  match sortSegs segs with
  | [] => []
  | x :: xs => mergeGo x xs

/-- The loop of cap_and_interval: truncate to max_len, then keep a segment only
if its start is at least last_end + min_gap (greedy earliest-wins). -/
def capGo (maxLen minGap : Int) : List (Int × Int) → Option Int → List (Int × Int)
  | [], _ => []
  | (s, e) :: rest, lastEnd =>
    let e2 := if e - s > maxLen then s + maxLen else e
    match lastEnd with
    | none => (s, e2) :: capGo maxLen minGap rest (some e2)
    | some le =>
      if s < le + minGap then capGo maxLen minGap rest (some le)
      else (s, e2) :: capGo maxLen minGap rest (some e2)

/-- cap_and_interval: sorted scan with length cap and minimum inter-event gap. -/
def cap_and_interval (events : List (Int × Int)) (maxLen minGap : Int) :
    List (Int × Int) :=
  capGo maxLen minGap (sortSegs events) none

/-- apply_op_ed_exclusion: drop events starting before op_sec or ending after
max(duration - ed_sec, 0); an elimination rule, not a clipping rule. -/
def apply_op_ed_exclusion (events : List (Int × Int)) (durationSec opSec edSec : Int) :
    List (Int × Int) :=
  let edStart := max (durationSec - edSec) 0
  events.filter fun p => !(p.1 < opSec) && !(p.2 > edStart)

/-- The order main() actually uses on merged events: step 7 applies the OP/ED
exclusion first, step 8 applies cap_and_interval to its result. -/
def finalEvents (merged : List (Int × Int)) (durationSec opSec edSec maxEvent gap : Int) :
    List (Int × Int) :=
  cap_and_interval (apply_op_ed_exclusion merged durationSec opSec edSec) maxEvent gap

/-- The spec-claimed order for the same data: cap_and_interval first (step 3),
then the OP/ED exclusion (step 4). -/
def specCapThenExclude (merged : List (Int × Int)) (durationSec opSec edSec maxEvent gap : Int) :
    List (Int × Int) :=
  apply_op_ed_exclusion (cap_and_interval merged maxEvent gap) durationSec opSec edSec

/-! ## Path B: percentile-spread scoring (build_candidates_20s.py) -/

/-- Total list indexing with default 0, modelling an in-bounds Python s[i]. -/
def nth (s : List ℚ) (i : Nat) : ℚ := (s.get? i).getD 0

/-- pctl: linear-interpolation percentile.  pos = q*(n-1); for fractional pos,
interpolate between the floor and ceil order statistics of the sorted values. -/
def pctl (vals : List ℚ) (q : ℚ) : Option ℚ :=
  match vals with
  | [] => none
  | _ :: _ =>
    let s := List.insertionSort (fun a b : ℚ => a ≤ b) vals
    if s.length = 1 then some (nth s 0)
    else
      let pos := q * ((s.length : ℚ) - 1)
      let lo := ⌊pos⌋
      let hi := ⌈pos⌉
      if lo = hi then some (nth s lo.toNat)
      else
        let frac := pos - (lo : ℚ)
        some (nth s lo.toNat * (1 - frac) + nth s hi.toNat * frac)

/-- motion_p90_p10: percentile spread p90 - p10 of the center-x values. -/
def motion_p90_p10 (cxList : List ℚ) : Option ℚ :=
  match pctl cxList (10 / 100), pctl cxList (90 / 100) with
  | some p10, some p90 => some (p90 - p10)
  | _, _ => none

/-- Python round to 3 decimals (half-to-even), on exact rationals. -/
def pyRound3 (x : ℚ) : ℚ :=
  let y := x * 1000
  let f := ⌊y⌋
  let r := y - (f : ℚ)
  let n : Int :=
    if r < 1 / 2 then f
    else if r > 1 / 2 then f + 1
    else if f % 2 = 0 then f else f + 1
  (n : ℚ) / 1000

/-- A per-second detector record: conf plus bbox_xyxy, both possibly missing. -/
structure Det where
  conf : Option ℚ
  bbox : Option (List ℚ)
  deriving DecidableEq, Repr

def CONF_MIN : ℚ := 40 / 100
def BBOX_W_MIN : ℚ := 50
def BBOX_W_MAX : ℚ := 210
def WIN_SEC : Int := 20
def HITS_MIN : Nat := 15
def CUT_HEAD_SEC : Int := 300
def CUT_TAIL_SEC : Int := 300

/-- reject_fullscreen: geometric rejection of full-frame false positives. -/
def reject_fullscreen (x1 y1 x2 y2 : ℚ) : Bool :=
  if y2 ≥ 358 then true
  else if y1 ≤ 2 then true
  else if y2 - y1 ≥ 320 then true
  else if x2 - x1 ≥ 320 then true
  else false

/-- is_valid_det: confidence threshold, 4-element bbox, geometry, width band. -/
def is_valid_det (d : Det) : Bool :=
  if d.conf.getD 0 < CONF_MIN then false
  else
    match d.bbox with
    | some [x1, y1, x2, y2] =>
      if reject_fullscreen x1 y1 x2 y2 then false
      else if x2 - x1 < BBOX_W_MIN || x2 - x1 > BBOX_W_MAX then false
      else true
    | _ => false

/-- cx_of: bbox center-x. -/
def cx_of (d : Det) : ℚ :=
  match d.bbox with
  | some [x1, _, x2, _] => (x1 + x2) / 2
  | _ => 0

/-- One 20-second window scan: the center-x values of the accepted detections,
in second order; the hit count is the length of this list. -/
def scanWindow (per : Int → Option Det) (start : Int) : List ℚ :=
  (List.range 20).filterMap fun dt =>
    match per (start + dt) with
    | none => none
    | some d => if is_valid_det d then some (cx_of d) else none

/-- The window starts range(start_min, start_max+1, 20). -/
def startList (durSec : Int) : List Int :=
  let startMin := CUT_HEAD_SEC
  let startMax := max 0 (durSec - CUT_TAIL_SEC - WIN_SEC)
  if startMax < startMin then []
  else (List.range ((startMax - startMin).toNat / 20 + 1)).map fun k =>
    startMin + 20 * (k : Int)

/-- A candidate row as written by build_candidates. -/
structure Cand where
  start_abs : Int
  end_abs : Int
  motion : ℚ
  hits : Nat
  deriving DecidableEq, Repr

/-- build_candidates: scan non-overlapping 20s windows, keep those with at
least HITS_MIN accepted detections, and score them with motion_p90_p10. -/
def build_candidates (per : Int → Option Det) (durSec : Int) : List Cand :=
  if durSec ≤ 0 then []
  else
    (startList durSec).filterMap fun start =>
      let cxList := scanWindow per start
      if cxList.length < HITS_MIN then none
      else
        match motion_p90_p10 cxList with
        | none => none
        | some m => some ⟨start, start + WIN_SEC, pyRound3 m, cxList.length⟩

/-! ## JSONL loading (common_win.py read_jsonl / pick_from_candidates.py load_jsonl) -/

/-- A persisted candidate-ledger row: the JSON-object fields the core reads and
writes.  Absent keys are none; picked_at/pick_id/video_id are the mark fields. -/
structure Row where
  start_abs : Option Int := none
  end_abs : Option Int := none
  motion : Option ℚ := none
  hits : Option Int := none
  picked_at : Option String := none
  pick_id : Option String := none
  video_id : Option String := none
  deriving DecidableEq, Repr

/-- Python truthiness of an optional string field: missing, null and the empty
string are falsy; any other string is truthy. -/
def truthyStr : Option String → Bool
  | none => false
  | some s => !(s == "")

/-- A physical line of a JSONL file, classified by what json.loads does to its
stripped text: whitespace-only, a line that raises JSONDecodeError, or a line
that parses to a row object. -/
inductive SrcLine
  | blank
  | malformed
  | row (r : Row)
  deriving DecidableEq, Repr

/-- read_jsonl / load_jsonl: one json.loads per non-empty line, appended in
order.  There is no try/except around json.loads, so a malformed line raises
and the whole load aborts exceptionally. -/
def read_jsonl : List SrcLine → Except String (List Row)
  | [] => .ok []
  | .blank :: rest => read_jsonl rest
  | .malformed :: _ => .error "JSONDecodeError"
  | .row r :: rest =>
    match read_jsonl rest with
    | .ok rows => .ok (r :: rows)
    | .error e => .error e

/-! ## Global picker (pick_global_candidates_win.py) -/

/-- RangeSpec: a motion band lo..hi with quota n and a diagnostic label. -/
structure RangeSpec where
  lo : ℚ
  hi : ℚ
  n : Int
  label : String
  deriving DecidableEq, Repr

/-- overlaps: half-open interval intersection test on (start, end) pairs. -/
def overlaps (a b : Int × Int) : Bool :=
  !(a.2 ≤ b.1 || b.2 ≤ a.1)

/-- in_range: lo <= motion <= hi. -/
def in_range (motion : ℚ) (r : RangeSpec) : Bool :=
  decide (r.lo ≤ motion) && decide (motion ≤ r.hi)

/-- A pooled candidate: the ledger row copied (dict(row)) plus the back-reference
tags _source_path/_source_index/_session_dir, and the pick_reason tag that the
band/hybrid strategies add on admission. -/
structure PoolRow extends Row where
  source_path : String
  source_index : Nat
  session_dir : String
  pick_reason : Option String := none
  deriving DecidableEq, Repr

/-- The filter body of collect_candidates for one ledger file: enumerate rows,
drop rows with truthy picked_at, (optionally) rows with truthy video_id, and
rows missing start_abs or end_abs; tag survivors with path, index, session. -/
def collectFile (path sessionDir : String) (skipUploaded : Bool) (rows : List Row) :
    List PoolRow :=
  rows.enum.filterMap fun pr =>
    if truthyStr pr.2.picked_at then none
    else if skipUploaded && truthyStr pr.2.video_id then none
    else if pr.2.start_abs.isNone || pr.2.end_abs.isNone then none
    else some { toRow := pr.2, source_path := path, source_index := pr.1,
                session_dir := sessionDir }

/-- collect_candidates: pool eligible rows across all ledger files; fs gives the
parsed rows of each file, sess gives the session directory of each file path. -/
def collect_candidates (fs : String → List Row) (paths : List String)
    (sess : String → String) (skipUploaded : Bool) : List PoolRow :=
  paths.flatMap fun p => collectFile p (sess p) skipUploaded (fs p)

/-- The global motion-range filter that main() applies to the pool. -/
def poolMotionFilter (pool : List PoolRow) (minMotion maxMotion : ℚ) : List PoolRow :=
  pool.filter fun x =>
    decide (minMotion ≤ x.motion.getD (-1)) && decide (x.motion.getD (-1) ≤ maxMotion)

/-- pick_id derivation: picked_at.replace(":", "").replace("-", ""). -/
def stripTs (s : String) : String :=
  ⟨s.data.filter fun c => !(c == ':') && !(c == '-')⟩

/-- Mark one row as picked: set picked_at and the derived pick_id. -/
def markRow (r : Row) (ts : String) : Row :=
  { r with picked_at := some ts, pick_id := some (stripTs ts) }

/-- Rewrite one ledger's rows, marking exactly the listed original line indices. -/
def markRows (rows : List Row) (idxs : List Nat) (ts : String) : List Row :=
  rows.enum.map fun pr => if pr.1 ∈ idxs then markRow pr.2 ts else pr.2

/-- setdefault-style grouping step: append index i to the entry of path p,
creating the entry at the end on first occurrence (dict insertion order). -/
def addIdx (p : String) (i : Nat) : List (String × List Nat) → List (String × List Nat)
  | [] => [(p, [i])]
  | (q, is) :: rest => if q == p then (q, is ++ [i]) :: rest else (q, is) :: addIdx p i rest

/-- The by_file grouping of mark_picked: source indices grouped by source path. -/
def groupByFile (chosen : List PoolRow) : List (String × List Nat) :=
  chosen.foldl (fun acc c => addIdx c.source_path c.source_index acc) []

/-- mark_picked: for each affected source file (exactly once per distinct path),
re-read its rows and write back the row list with the chosen indices marked. -/
def mark_picked (fs : String → List Row) (chosen : List PoolRow) (ts : String) :
    List (String × List Row) :=
  (groupByFile chosen).map fun g => (g.1, markRows (fs g.1) g.2 ts)

/-- The chosen source indices that point into file p. -/
def chosenIdxs (chosen : List PoolRow) (p : String) : List Nat :=
  (chosen.filter fun c => c.source_path == p).map fun c => c.source_index

/-- The ledger state after mark_picked: each file's rows with its chosen line
indices marked (files with no chosen row are rewritten to themselves). -/
def applyMark (fs : String → List Row) (chosen : List PoolRow) (ts : String) :
    String → List Row :=
  fun p => markRows (fs p) (chosenIdxs chosen p) ts

/-- The (start, end) window of a pool row, as int(row["start_abs"]) etc. -/
def win (r : PoolRow) : Int × Int :=
  (r.start_abs.getD 0, r.end_abs.getD 0)

/-- The running per-session admission state shared by every strategy:
admitted rows in order, admitted windows per session, counts per session. -/
structure PickState where
  out : List PoolRow
  wins : String → List (Int × Int)
  cnts : String → Nat

def emptyPick : PickState := ⟨[], fun _ => [], fun _ => 0⟩

/-- The greedy admission loop of choose_random: stop at total, skip rows of a
session at its cap, skip (when no_overlap) rows whose window intersects an
already-admitted window of the same session. -/
def chooseGo (total maxPer : Int) (noOverlap : Bool) :
    List PoolRow → PickState → PickState
  | [], st => st
  | row :: rest, st =>
    if (st.out.length : Int) ≥ total then st
    else
      let sess := row.session_dir
      let cnt := st.cnts sess
      if maxPer > 0 && (cnt : Int) ≥ maxPer then chooseGo total maxPer noOverlap rest st
      else
        let w := win row
        if noOverlap && (st.wins sess).any (fun x => overlaps w x) then
          chooseGo total maxPer noOverlap rest st
        else
          chooseGo total maxPer noOverlap rest
            { out := st.out ++ [row],
              wins := fun s => if s == sess then st.wins s ++ [w] else st.wins s,
              cnts := fun s => if s == sess then cnt + 1 else st.cnts s }

/-- choose_random: shuffle the pool, then greedily admit up to total. -/
def choose_random (shuffle : List PoolRow → List PoolRow) (pool : List PoolRow)
    (total : Int) (noOverlap : Bool) (maxPer : Int) : List PoolRow :=
  (chooseGo total maxPer noOverlap (shuffle pool) emptyPick).out

/-- The sort key of choose_motion: float(r.get("motion", -1.0)). -/
def motionKey (r : PoolRow) : ℚ := r.motion.getD (-1)

/-- Stable insert for descending motion order: a row goes in front of the first
row whose key is at most its own, so equal keys keep their original order. -/
def insertDesc (x : PoolRow) : List PoolRow → List PoolRow
  | [] => [x]
  | y :: ys => if motionKey y ≤ motionKey x then x :: y :: ys else y :: insertDesc x ys

/-- sorted(pool, key=motion, reverse=True): stable descending sort by motion. -/
def sortByMotionDesc : List PoolRow → List PoolRow
  | [] => []
  | x :: xs => insertDesc x (sortByMotionDesc xs)

/-- The inner per-band admission loop shared by choose_band and choose_hybrid:
like chooseGo but bounded by the band quota via the got counter, tagging each
admitted row with a pick_reason, with session state carried across bands. -/
def bandGo (reason : String) (quota maxPer : Int) (noOverlap : Bool) :
    List PoolRow → Int → PickState → PickState
  | [], _, st => st
  | row :: rest, got, st =>
    if got ≥ quota then st
    else
      let sess := row.session_dir
      let cnt := st.cnts sess
      if maxPer > 0 && (cnt : Int) ≥ maxPer then bandGo reason quota maxPer noOverlap rest got st
      else
        let w := win row
        if noOverlap && (st.wins sess).any (fun x => overlaps w x) then
          bandGo reason quota maxPer noOverlap rest got st
        else
          bandGo reason quota maxPer noOverlap rest (got + 1)
            { out := st.out ++ [{ row with pick_reason := some reason }],
              wins := fun s => if s == sess then st.wins s ++ [w] else st.wins s,
              cnts := fun s => if s == sess then cnt + 1 else st.cnts s }

/-- The per-band outer loop of choose_band: filter the pool to the band's motion
range, shuffle that subset (the shuffler is indexed by how many shuffle calls
the stateful rng has already served), and fill the quota greedily. -/
def chooseBandGo (pool : List PoolRow) (sh : Nat → List PoolRow → List PoolRow)
    (noOverlap : Bool) (maxPer : Int) :
    List RangeSpec → Nat → PickState → PickState
  | [], _, st => st
  | r :: rs, k, st =>
    let items := pool.filter fun x => in_range (x.motion.getD (-1)) r
    let items := sh k items
    chooseBandGo pool sh noOverlap maxPer rs (k + 1)
      (bandGo ("band:" ++ r.label) r.n maxPer noOverlap items 0 st)

/-- choose_band. -/
def choose_band (sh : Nat → List PoolRow → List PoolRow) (pool : List PoolRow)
    (ranges : List RangeSpec) (noOverlap : Bool) (maxPer : Int) : List PoolRow :=
  (chooseBandGo pool sh noOverlap maxPer ranges 0 emptyPick).out

/-- The per-band outer loop of choose_hybrid: skip empty bands (no shuffle call),
otherwise sort the band subset by motion descending, keep the top half (at
least one row), shuffle the kept rows, and fill the quota greedily. -/
def chooseHybridGo (pool : List PoolRow) (sh : Nat → List PoolRow → List PoolRow)
    (noOverlap : Bool) (maxPer : Int) :
    List RangeSpec → Nat → PickState → PickState
  | [], _, st => st
  | r :: rs, k, st =>
    let items := pool.filter fun x => in_range (x.motion.getD (-1)) r
    if items.isEmpty then chooseHybridGo pool sh noOverlap maxPer rs k st
    else
      let items := sortByMotionDesc items
      let keepN := max 1 (items.length / 2)
      let items := items.take keepN
      let items := sh k items
      chooseHybridGo pool sh noOverlap maxPer rs (k + 1)
        (bandGo ("hybrid:" ++ r.label) r.n maxPer noOverlap items 0 st)

/-- choose_hybrid. -/
def choose_hybrid (sh : Nat → List PoolRow → List PoolRow) (pool : List PoolRow)
    (ranges : List RangeSpec) (noOverlap : Bool) (maxPer : Int) : List PoolRow :=
  (chooseHybridGo pool sh noOverlap maxPer ranges 0 emptyPick).out

/-! ## CPython random.Random(0), as used by choose_motion

choose_motion calls choose_random with a fresh random.Random(0), whose shuffle
permutes the motion-sorted pool.  random.Random seeds MT19937 through
init_by_array on the key [0]; shuffle draws getrandbits(k) words (the top k
bits of successive 32-bit outputs) through the rejection loop of _randbelow.
The 624-word generator state is packed into one natural number, 32 bits per
word; only the first twist block is modelled, which covers every output a
shuffle of fewer than about a hundred rows can consume. -/

/-- 2^32, the word modulus of the Mersenne Twister. -/
def M32 : Nat := 4294967296

/-- Force a Nat to a literal before continuing (keeps kernel reduction shallow). -/
def nforce (x : Nat) (k : Nat → Nat) : Nat := if x % 2 == 0 then k x else k x

/-- Read 32-bit word i of a packed MT19937 state. -/
def wGet (st i : Nat) : Nat := (st >>> (32 * i)) % M32

/-- Write 32-bit word i of a packed MT19937 state. -/
def wSet (st i v : Nat) : Nat :=
  let lo := st % (1 <<< (32 * i))
  let hi := st >>> (32 * (i + 1))
  hi * (1 <<< (32 * (i + 1))) + v * (1 <<< (32 * i)) + lo

/-- init_genrand step: mt[i] = 1812433253 * (mt[i-1] xor (mt[i-1] >> 30)) + i. -/
def mtInitStep (prev i : Nat) : Nat :=
  (1812433253 * (Nat.xor prev (prev >>> 30)) + i) % M32

def mtInitGo : Nat → Nat → Nat → Nat → Nat
  | 0, _, _, acc => acc
  | f + 1, i, prev, acc =>
    nforce (mtInitStep prev i) fun v =>
      nforce (acc + v * (1 <<< (32 * i))) fun acc2 =>
        mtInitGo f (i + 1) v acc2

/-- MT19937 init_genrand(seed), packed. -/
def initGenrand (s : Nat) : Nat :=
  mtInitGo 623 1 (s % M32) (s % M32)

/-- init_by_array first-loop update (key word kj at key position j). -/
def ibaStep1 (prev cur kj j : Nat) : Nat :=
  (Nat.xor cur ((Nat.xor prev (prev >>> 30)) * 1664525 % M32) + kj + j) % M32

/-- init_by_array second-loop update at index i. -/
def ibaStep2 (prev cur i : Nat) : Nat :=
  ((Nat.xor cur ((Nat.xor prev (prev >>> 30)) * 1566083941)) + M32 - (i % M32)) % M32

/-- First init_by_array loop for key = [0] (key[j] = 0 and j = 0 throughout). -/
def ibaGo1 : Nat → Nat → Nat → Nat
  | 0, _, st => st
  | f + 1, i, st =>
    nforce (ibaStep1 (wGet st (i - 1)) (wGet st i) 0 0) fun v =>
      nforce (wSet st i v) fun st2 =>
        if i + 1 ≥ 624 then
          nforce (wSet st2 0 (wGet st2 623)) fun st3 => ibaGo1 f 1 st3
        else ibaGo1 f (i + 1) st2

/-- Second init_by_array loop. -/
def ibaGo2 : Nat → Nat → Nat → Nat
  | 0, _, st => st
  | f + 1, i, st =>
    nforce (ibaStep2 (wGet st (i - 1)) (wGet st i) i) fun v =>
      nforce (wSet st i v) fun st2 =>
        if i + 1 ≥ 624 then
          nforce (wSet st2 0 (wGet st2 623)) fun st3 => ibaGo2 f 1 st3
        else ibaGo2 f (i + 1) st2

/-- The MT19937 state CPython builds for random.Random(0): init_genrand(19650218),
the two init_by_array([0]) passes (the second continues at index 2), then
mt[0] = 0x80000000. -/
def mtSeeded0 : Nat :=
  wSet (ibaGo2 623 2 (ibaGo1 624 1 (initGenrand 19650218))) 0 2147483648

/-- One twist step at index kk, reading the partially updated state exactly as
the in-place C loop does. -/
def twistStep (st kk : Nat) : Nat :=
  let y := wGet st kk / 2147483648 * 2147483648 + wGet st ((kk + 1) % 624) % 2147483648
  let v := Nat.xor (Nat.xor (wGet st ((kk + 397) % 624)) (y >>> 1))
    (if y % 2 == 1 then 2567483615 else 0)
  wSet st kk v

def twistGo : Nat → Nat → Nat → Nat
  | 0, _, st => st
  | f + 1, kk, st => nforce (twistStep st kk) fun st2 => twistGo f (kk + 1) st2

/-- The state of random.Random(0) after its first full twist. -/
def mt0Twisted : Nat := twistGo 624 0 mtSeeded0

/-- MT19937 tempering. -/
def temper (y : Nat) : Nat :=
  let y := Nat.xor y (y >>> 11)
  let y := Nat.xor y ((y <<< 7) % M32 &&& 2636928640)
  let y := Nat.xor y ((y <<< 15) % M32 &&& 4022730752)
  Nat.xor y (y >>> 18)

/-- The k-th 32-bit output of random.Random(0), for k < 624. -/
def rng0Out (k : Nat) : Nat := temper (wGet mt0Twisted k)

/-- n.bit_length() via fuelled halving (the fuel n always suffices). -/
def bitLenGo : Nat → Nat → Nat
  | 0, _ => 0
  | fuel + 1, n => if n = 0 then 0 else bitLenGo fuel (n / 2) + 1

def bitLen (n : Nat) : Nat := bitLenGo n n

/-- _randbelow_with_getrandbits on the Random(0) stream: draw the top k bits of
the next output, rejecting draws >= n; returns the draw and the next stream
position.  The fuel bounds the modelled stream. -/
def randbelowGo : Nat → Nat → Nat → Nat → Nat × Nat
  | 0, _, _, pos => (0, pos)
  | fuel + 1, n, k, pos =>
    let r := rng0Out pos >>> (32 - k)
    if r ≥ n then randbelowGo fuel n k (pos + 1) else (r, pos + 1)

def randbelow0 (n pos : Nat) : Nat × Nat := randbelowGo 600 n (bitLen n) pos

/-- Exchange positions i and j of a list (no-op when out of range). -/
def swapAt (l : List α) (i j : Nat) : List α :=
  match l.get? i, l.get? j with
  | some a, some b => (l.set i b).set j a
  | _, _ => l

/-- The Fisher-Yates loop of random.shuffle: for i from len-1 down to 1,
j = randbelow(i+1), swap x[i] and x[j]; pos threads the stream position. -/
def mtShuffleGo : Nat → List α → Nat → List α × Nat
  | 0, l, pos => (l, pos)
  | i + 1, l, pos =>
    let jp := randbelow0 (i + 2) pos
    mtShuffleGo i (swapAt l (i + 1) jp.1) jp.2

/-- random.Random(0).shuffle on a fresh generator, as choose_motion creates it. -/
def mtShuffle (l : List α) : List α := (mtShuffleGo (l.length - 1) l 0).1

/-- choose_motion: sort the pool by motion descending (stable), then run the
choose_random admission on it with a fresh random.Random(0). -/
def choose_motion (pool : List PoolRow) (total : Int) (noOverlap : Bool)
    (maxPer : Int) : List PoolRow :=
  choose_random mtShuffle (sortByMotionDesc pool) total noOverlap maxPer

/-- What the spec asserts choose_motion does: a single greedy left-to-right pass
over the motion-sorted pool itself, with no shuffling. -/
def choose_motion_spec (pool : List PoolRow) (total : Int) (noOverlap : Bool)
    (maxPer : Int) : List PoolRow :=
  (chooseGo total maxPer noOverlap (sortByMotionDesc pool) emptyPick).out

/-- The selection strategies of main(), dispatching exactly as --mode does. -/
inductive PickMode
  | random
  | motion
  | band
  | hybrid
  deriving DecidableEq, Repr

/-- The strategy dispatch of main(): random and band/hybrid consume the seeded
rng sh; motion ignores it and uses a fresh Random(0) internally. -/
def chooseByMode (mode : PickMode) (sh : Nat → List PoolRow → List PoolRow)
    (pool : List PoolRow) (ranges : List RangeSpec) (total : Int)
    (noOverlap : Bool) (maxPer : Int) : List PoolRow :=
  match mode with
  | .random => choose_random (sh 0) pool total noOverlap maxPer
  | .motion => choose_motion pool total noOverlap maxPer
  | .band => choose_band sh pool ranges noOverlap maxPer
  | .hybrid => choose_hybrid sh pool ranges noOverlap maxPer

/-! ## Derived predicates and spec-side helper definitions -/

/-- The rows parsed from the well-formed lines of a JSONL file, in order. -/
def parsedRows (lines : List SrcLine) : List Row :=
  lines.filterMap fun
    | .row r => some r
    | _ => none

/-- Does some chosen pool row point at line i of file p? -/
def chosenHas (chosen : List PoolRow) (p : String) (i : Nat) : Bool :=
  chosen.any fun c => c.source_path == p && c.source_index == i

/-- Per-session non-overlap of an admitted list: any two rows of the same
session have non-intersecting [start_abs, end_abs) windows. -/
def NoOv (out : List PoolRow) : Prop :=
  out.Pairwise fun a b => a.session_dir = b.session_dir → overlaps (win a) (win b) = false

/-- The invariant the admission loops maintain: the out list is per-session
non-overlapping and every admitted window is recorded for its session. -/
def StInv (st : PickState) : Prop :=
  NoOv st.out ∧ ∀ a ∈ st.out, win a ∈ st.wins a.session_dir

/-- Two pool rows that denote the same pooled ledger row: same back-reference
tags and the same admission-relevant fields (the strategies copy rows, adding
only pick_reason). -/
def likeRef (x y : PoolRow) : Prop :=
  x.source_path = y.source_path ∧ x.source_index = y.source_index ∧
    x.session_dir = y.session_dir ∧ win x = win y

/-- The interpolation value of pctl at a real-valued rank position. -/
def pctlInterp (s : List ℚ) (p : ℚ) : ℚ :=
  nth s (⌊p⌋).toNat * (1 - (p - (⌊p⌋ : ℚ))) + nth s (⌈p⌉).toNat * (p - (⌊p⌋ : ℚ))

/-! ## Lemmas: segment post-processing -/

theorem mem_insertPair {x y : Int × Int} {l : List (Int × Int)} :
    x ∈ insertPair y l ↔ x = y ∨ x ∈ l := by
  induction l with
  | nil => simp [insertPair]
  | cons z zs ih =>
    by_cases h : pairLe y z = true
    · simp [insertPair, h]
    · simp only [insertPair, h]
      simp [ih]
      tauto

theorem mem_sortSegs {x : Int × Int} {l : List (Int × Int)} :
    x ∈ sortSegs l ↔ x ∈ l := by
  induction l with
  | nil => simp [sortSegs]
  | cons z zs ih => simp [sortSegs, mem_insertPair, ih]

theorem mem_capGo {maxLen minGap : Int} {l : List (Int × Int)} {last : Option Int}
    {p : Int × Int} (hp : p ∈ capGo maxLen minGap l last) :
    ∃ e0, (p.1, e0) ∈ l ∧ p.2 ≤ e0 ∧ p.2 - p.1 ≤ maxLen := by
  induction l generalizing last with
  | nil => simp [capGo] at hp
  | cons se rest ih =>
    obtain ⟨s, e⟩ := se
    have hkeep : p = (s, if e - s > maxLen then s + maxLen else e) →
        ∃ e0, (p.1, e0) ∈ (s, e) :: rest ∧ p.2 ≤ e0 ∧ p.2 - p.1 ≤ maxLen := by
      intro hpe
      refine ⟨e, ?_, ?_, ?_⟩
      · simp [hpe]
      · by_cases hc : e - s > maxLen
        · simp only [hpe, hc, ite_true]
          omega
        · simp [hpe, hc]
      · by_cases hc : e - s > maxLen
        · simp only [hpe, hc, ite_true]
          omega
        · simp only [hpe, hc, ite_false]
          omega
    match last with
    | none =>
      simp only [capGo, List.mem_cons] at hp
      rcases hp with hpe | hrec
      · exact hkeep hpe
      · obtain ⟨e0, hm, h1, h2⟩ := ih hrec
        exact ⟨e0, List.mem_cons_of_mem _ hm, h1, h2⟩
    | some le =>
      simp only [capGo] at hp
      by_cases hg : s < le + minGap
      · simp only [hg, if_pos, ite_true] at hp
        obtain ⟨e0, hm, h1, h2⟩ := ih hp
        exact ⟨e0, List.mem_cons_of_mem _ hm, h1, h2⟩
      · simp only [hg, ite_false] at hp
        rcases List.mem_cons.1 hp with hpe | hrec
        · exact hkeep hpe
        · obtain ⟨e0, hm, h1, h2⟩ := ih hrec
          exact ⟨e0, List.mem_cons_of_mem _ hm, h1, h2⟩

theorem mem_exclusion {evs : List (Int × Int)} {dur op ed : Int} {p : Int × Int}
    (hp : p ∈ apply_op_ed_exclusion evs dur op ed) :
    p ∈ evs ∧ op ≤ p.1 ∧ p.2 ≤ max (dur - ed) 0 := by
  have := List.mem_filter.1 hp
  refine ⟨this.1, ?_, ?_⟩ <;>
    [skip; skip] <;>
    · have h2 := this.2
      simp only [Bool.and_eq_true, Bool.not_eq_true', decide_eq_false_iff_not, not_lt] at h2
      omega

/-! ## Claim C2: order of cap_and_interval and OP/ED exclusion -/

/-- C2 counterexample: on merged segments [(170,180),(200,210)] with duration
1000, op_sec = ed_sec = 180, max_len = min_gap = 60, main() (exclusion first,
then cap+interval) keeps [(200,210)], whereas the claimed composition
exclusion(cap_and_interval(merged)) yields [] — cap+interval first lets the
later-excluded segment (170,180) suppress (200,210) through the gap rule. -/
theorem C2_counterexample_order_matters :
    finalEvents [(170, 180), (200, 210)] 1000 180 180 60 60 = [(200, 210)] ∧
    specCapThenExclude [(170, 180), (200, 210)] 1000 180 180 60 60 = [] ∧
    finalEvents [(170, 180), (200, 210)] 1000 180 180 60 60 ≠
      specCapThenExclude [(170, 180), (200, 210)] 1000 180 180 60 60 := by
  refine ⟨by decide, by decide, by decide⟩

/-- C2 amended: the final output equals cap_and_interval applied to the
OP/ED-excluded merged segments (exclusion first, cap+interval second), and
consequently every output segment starts at or after op_sec, ends at or before
max(duration - ed_sec, 0), and is at most max_len long. -/
theorem C2_pipeline_order_and_bounds
    (merged : List (Int × Int)) (dur op ed maxLen gap : Int) :
    finalEvents merged dur op ed maxLen gap =
      cap_and_interval (apply_op_ed_exclusion merged dur op ed) maxLen gap ∧
    ∀ p ∈ finalEvents merged dur op ed maxLen gap,
      op ≤ p.1 ∧ p.2 ≤ max (dur - ed) 0 ∧ p.2 - p.1 ≤ maxLen := by
  refine ⟨rfl, ?_⟩
  intro p hp
  obtain ⟨e0, hm, hle, hcap⟩ := mem_capGo hp
  have hm2 : (p.1, e0) ∈ apply_op_ed_exclusion merged dur op ed := mem_sortSegs.1 hm
  obtain ⟨_, hop, hed⟩ := mem_exclusion hm2
  exact ⟨hop, by omega, hcap⟩

/-! ## Claim C6: run detection across gaps in the second index -/

/-- C6 counterexample: metric rows at seconds 0,1,2,5 (seconds 3 and 4 absent)
with deltas 0,4,4,4, threshold 3, min_len 3.  The claim says the active seconds
2 and 5 lie in different runs and no returned interval spans a missing second;
the code returns the single interval [1,6), which spans the missing seconds 3
and 4 and counts them toward its length. -/
theorem C6_counterexample_gap_spans_run :
    detect_hits_4sec (compute_delta [(0, 100), (1, 104), (2, 108), (5, 112)]) 3 3 =
      [(1, 6)] ∧
    (compute_delta [(0, 100), (1, 104), (2, 108), (5, 112)]).map (fun r => r.1) =
      [0, 1, 2, 5] ∧
    ((1 : Int) ≤ 3 ∧ (3 : Int) < 6) := by
  refine ⟨by decide, by decide, by decide⟩

theorem getLastD_shift (sec d : Int) (tws : List Int) :
    (sec :: tws).getLast?.getD d = tws.getLast?.getD sec := by
  rw [← List.getLastD_eq_getLast?, ← List.getLastD_eq_getLast?, List.getLastD_cons]

theorem blockLast_cons_active (sec : Int) (r : List (Int × Bool)) (d : Int) :
    blockLast ((sec, true) :: r) d = blockLast r sec := by
  simp only [blockLast, List.takeWhile_cons, List.map_cons]
  exact getLastD_shift sec d _

theorem detectGo_active_run (minLen : Int) (l : List (Int × Bool)) (rs ls : Int) :
    detectGo minLen l (some rs) (some ls) =
      closeRun minLen rs (some (blockLast l ls)) ++
        detectGo minLen (l.dropWhile fun p => p.2) none none := by
  induction l generalizing ls with
  | nil => simp [detectGo, blockLast]
  | cons sb rest ih =>
    obtain ⟨sec, b⟩ := sb
    cases b with
    | true =>
      have h1 : detectGo minLen ((sec, true) :: rest) (some rs) (some ls) =
          detectGo minLen rest (some rs) (some sec) := by
        simp [detectGo, Option.getD]
      rw [h1, ih sec, blockLast_cons_active]
      simp [List.dropWhile_cons]
    | false =>
      have h1 : detectGo minLen ((sec, false) :: rest) (some rs) (some ls) =
          closeRun minLen rs (some ls) ++ detectGo minLen rest none none := by
        simp [detectGo]
      have h2 : detectGo minLen ((sec, false) :: rest) none none =
          detectGo minLen rest none none := by
        simp [detectGo]
      have h3 : blockLast ((sec, false) :: rest) ls = ls := by
        simp [blockLast, List.takeWhile_cons]
      rw [h1, List.dropWhile_cons]
      simp only [h3]
      simp [h2]

theorem detectGo_eq_activeRunsF (minLen : Int) (n : Nat) (l : List (Int × Bool))
    (hn : l.length ≤ n) :
    detectGo minLen l none none =
      (activeRunsF n l).filter fun p => p.2 - p.1 ≥ minLen := by
  induction n generalizing l with
  | zero =>
    have : l = [] := List.length_eq_zero.1 (Nat.le_zero.1 hn)
    subst this
    simp [detectGo, activeRunsF]
  | succ n ih =>
    cases l with
    | nil => simp [detectGo, activeRunsF]
    | cons sb rest =>
      obtain ⟨sec, b⟩ := sb
      cases b with
      | true =>
        have h1 : detectGo minLen ((sec, true) :: rest) none none =
            detectGo minLen rest (some sec) (some sec) := by
          simp [detectGo, Option.getD]
        rw [h1, detectGo_active_run]
        have hlen : (rest.dropWhile fun p => p.2).length ≤ n := by
          have := (List.dropWhile_sublist (l := rest) (p := fun p => p.2)).length_le
          simp only [List.length_cons] at hn
          omega
        rw [ih _ hlen]
        simp only [activeRunsF, ite_true]
        rw [List.filter_cons]
        by_cases hc : blockLast rest sec + 1 - sec ≥ minLen
        · simp [closeRun, hc]
        · simp [closeRun, hc]
      | false =>
        have h1 : detectGo minLen ((sec, false) :: rest) none none =
            detectGo minLen rest none none := by
          simp [detectGo]
        have hlen : rest.length ≤ n := by
          simp only [List.length_cons] at hn
          omega
        rw [h1, ih _ hlen]
        simp [activeRunsF]

/-- C6 amended: a run is a maximal block of input entries that are consecutive
in the (sorted, deduplicated) input list and active; a gap in the second index
does not terminate a run, the returned interval spans from the block's first
second to its last second plus one, and the length test counts any missing
seconds inside that span.  detect_hits_4sec coincides with this adjacency
semantics on every input. -/
theorem C6_detect_hits_eq_adjacency_runs
    (deltaRows : List (Int × ℚ × ℚ)) (dyTh : ℚ) (minLen : Int) :
    detect_hits_4sec deltaRows dyTh minLen = detectSpec deltaRows dyTh minLen := by
  unfold detect_hits_4sec detectSpec activeRuns
  exact detectGo_eq_activeRunsF minLen _ _ le_rfl

/-! ## Claim C9: exact percentile values -/

/-- C9: on centers [10,20,30,40,50] the linear-interpolation percentiles are
exactly p10 = 14 and p90 = 46, and the motion score is exactly 32. -/
theorem C9_percentile_exact_values :
    pctl [10, 20, 30, 40, 50] (10 / 100) = some 14 ∧
    pctl [10, 20, 30, 40, 50] (90 / 100) = some 46 ∧
    motion_p90_p10 [10, 20, 30, 40, 50] = some 32 := by
  refine ⟨by decide, by decide, by decide⟩

/-! ## Claim C5: malformed-line handling in the JSONL loaders -/

/-- C5 counterexample: a ledger whose second line is malformed JSON.  The claim
says load returns the rows of the two well-formed lines; read_jsonl/load_jsonl
instead raise json.JSONDecodeError at the malformed line, aborting the load. -/
theorem C5_counterexample_malformed_aborts :
    read_jsonl [SrcLine.row {}, SrcLine.malformed, SrcLine.row { start_abs := some 1 }] =
      .error "JSONDecodeError" ∧
    read_jsonl [SrcLine.row {}, SrcLine.malformed, SrcLine.row { start_abs := some 1 }] ≠
      .ok [{}, { start_abs := some 1 }] := by
  exact ⟨rfl, fun h => Except.noConfusion h⟩

/-- C5 amended: the loaders skip empty (whitespace-only) lines individually,
but do not skip malformed lines: a load with no malformed line returns the
parsed rows of the well-formed lines in order, and any malformed line makes
the whole load raise. -/
theorem C5_load_skips_blank_but_raises_on_malformed (lines : List SrcLine) :
    (SrcLine.malformed ∉ lines → read_jsonl lines = .ok (parsedRows lines)) ∧
    (SrcLine.malformed ∈ lines → read_jsonl lines = .error "JSONDecodeError") := by
  induction lines with
  | nil => simp [read_jsonl, parsedRows]
  | cons a rest ih =>
    cases a with
    | blank =>
      refine ⟨fun h => ?_, fun h => ?_⟩
      · have : SrcLine.malformed ∉ rest := fun hc => h (List.mem_cons_of_mem _ hc)
        simp [read_jsonl, parsedRows, List.filterMap_cons]
        exact ih.1 this
      · have : SrcLine.malformed ∈ rest := by
          rcases List.mem_cons.1 h with h1 | h2
          · exact absurd h1 (by simp)
          · exact h2
        simp only [read_jsonl]
        exact ih.2 this
    | malformed =>
      refine ⟨fun h => absurd (List.mem_cons_self _ _) h, fun _ => ?_⟩
      simp [read_jsonl]
    | row r =>
      refine ⟨fun h => ?_, fun h => ?_⟩
      · have : SrcLine.malformed ∉ rest := fun hc => h (List.mem_cons_of_mem _ hc)
        simp only [read_jsonl, ih.1 this]
        simp [parsedRows, List.filterMap_cons]
      · have : SrcLine.malformed ∈ rest := by
          rcases List.mem_cons.1 h with h1 | h2
          · exact absurd h1 (by simp)
          · exact h2
        simp only [read_jsonl, ih.2 this]

/-- Witness for C5's amended theorem at concrete ledgers: a clean two-row load
returns both rows; a load whose middle line is malformed errors out. -/
theorem C5_load_witness :
    (SrcLine.malformed ∉ [SrcLine.row {}, SrcLine.blank, SrcLine.row { hits := some 3 }] ∧
      read_jsonl [SrcLine.row {}, SrcLine.blank, SrcLine.row { hits := some 3 }] =
        .ok [{}, { hits := some 3 }]) ∧
    (SrcLine.malformed ∈ [SrcLine.row {}, SrcLine.malformed] ∧
      read_jsonl [SrcLine.row {}, SrcLine.malformed] = .error "JSONDecodeError") :=
  ⟨⟨by decide, (C5_load_skips_blank_but_raises_on_malformed _).1 (by decide)⟩,
   ⟨by decide, (C5_load_skips_blank_but_raises_on_malformed _).2 (by decide)⟩⟩

/-! ## Lemmas: percentile interpolation is monotone in the rank position -/

theorem nth_mono {s : List ℚ} (hs : s.Pairwise (fun a b : ℚ => a ≤ b))
    {i j : Nat} (hij : i ≤ j) (hj : j < s.length) : nth s i ≤ nth s j := by
  rcases Nat.eq_or_lt_of_le hij with h | h
  · subst h; exact le_rfl
  · have hi : i < s.length := lt_trans h hj
    have hrel := (List.pairwise_iff_get.1 hs) ⟨i, hi⟩ ⟨j, hj⟩ h
    have hgi : s.get? i = some (s.get ⟨i, hi⟩) := List.get?_eq_get hi
    have hgj : s.get? j = some (s.get ⟨j, hj⟩) := List.get?_eq_get hj
    simp only [nth, hgi, hgj, Option.getD_some]
    exact hrel

theorem pctlInterp_mono {s : List ℚ} (hs : s.Pairwise (fun a b : ℚ => a ≤ b))
    {p1 p2 : ℚ} (h0 : 0 ≤ p1) (h12 : p1 ≤ p2) (hup : p2 ≤ (s.length : ℚ) - 1) :
    pctlInterp s p1 ≤ pctlInterp s p2 := by
  have hf1 : (0 : Int) ≤ ⌊p1⌋ := Int.floor_nonneg.2 h0
  have hf2 : (0 : Int) ≤ ⌊p2⌋ := Int.floor_nonneg.2 (le_trans h0 h12)
  have hc1 : (0 : Int) ≤ ⌈p1⌉ := le_trans hf1 (Int.floor_le_ceil _)
  have hc2 : (0 : Int) ≤ ⌈p2⌉ := le_trans hf2 (Int.floor_le_ceil _)
  have hcast : p2 ≤ (((s.length : Int) - 1 : Int) : ℚ) := by push_cast; linarith
  have hC2 : ⌈p2⌉ ≤ (s.length : Int) - 1 := Int.ceil_le.2 hcast
  have hC1 : ⌈p1⌉ ≤ (s.length : Int) - 1 :=
    le_trans (Int.ceil_le_ceil h12) hC2
  have hF2 : ⌊p2⌋ ≤ (s.length : Int) - 1 := le_trans (Int.floor_le_ceil _) hC2
  have hF1 : ⌊p1⌋ ≤ (s.length : Int) - 1 := le_trans (Int.floor_le_ceil _) hC1
  have hflo : ⌊p1⌋ ≤ ⌊p2⌋ := Int.floor_le_floor h12
  have hcc : ⌈p1⌉ ≤ ⌈p2⌉ := Int.ceil_le_ceil h12
  have eq1 : ((⌊p1⌋.toNat : Int)) = ⌊p1⌋ := Int.toNat_of_nonneg hf1
  have eq2 : ((⌊p2⌋.toNat : Int)) = ⌊p2⌋ := Int.toNat_of_nonneg hf2
  have eq3 : ((⌈p1⌉.toNat : Int)) = ⌈p1⌉ := Int.toNat_of_nonneg hc1
  have eq4 : ((⌈p2⌉.toNat : Int)) = ⌈p2⌉ := Int.toNat_of_nonneg hc2
  have hlen : 1 ≤ s.length := by omega
  have hjC1 : ⌈p1⌉.toNat < s.length := by omega
  have hjC2 : ⌈p2⌉.toNat < s.length := by omega
  have hjF2 : ⌊p2⌋.toNat < s.length := by omega
  have hA1C1 : nth s ⌊p1⌋.toNat ≤ nth s ⌈p1⌉.toNat :=
    nth_mono hs (by have := Int.floor_le_ceil p1; omega) hjC1
  have hA2C2 : nth s ⌊p2⌋.toNat ≤ nth s ⌈p2⌉.toNat :=
    nth_mono hs (by have := Int.floor_le_ceil p2; omega) hjC2
  have hfr1lo : 0 ≤ p1 - (⌊p1⌋ : ℚ) := by have := Int.floor_le p1; linarith
  have hfr1hi : p1 - (⌊p1⌋ : ℚ) ≤ 1 := by have := Int.lt_floor_add_one p1; push_cast at *; linarith
  have hfr2lo : 0 ≤ p2 - (⌊p2⌋ : ℚ) := by have := Int.floor_le p2; linarith
  have hfr2hi : p2 - (⌊p2⌋ : ℚ) ≤ 1 := by have := Int.lt_floor_add_one p2; push_cast at *; linarith
  rcases eq_or_lt_of_le hflo with heq | hlt
  · -- same floor cell
    have hfr12 : p1 - (⌊p1⌋ : ℚ) ≤ p2 - (⌊p2⌋ : ℚ) := by rw [← heq]; linarith
    have hC1C2 : nth s ⌈p1⌉.toNat ≤ nth s ⌈p2⌉.toNat :=
      nth_mono hs (by omega) hjC2
    have hAC1 : nth s ⌊p1⌋.toNat ≤ nth s ⌈p1⌉.toNat := hA1C1
    have hA12 : nth s ⌊p1⌋.toNat = nth s ⌊p2⌋.toNat := by rw [heq]
    simp only [pctlInterp, ← heq]
    nlinarith [mul_nonneg (sub_nonneg.2 hfr12) (sub_nonneg.2 hAC1),
      mul_nonneg (by linarith : (0:ℚ) ≤ p2 - (⌊p1⌋ : ℚ)) (sub_nonneg.2 hC1C2),
      mul_nonneg hfr1lo (sub_nonneg.2 hC1C2)]
  · -- strictly later cell: v1 <= nth ceil(p1) <= nth floor(p2) <= v2
    have hmid : nth s ⌈p1⌉.toNat ≤ nth s ⌊p2⌋.toNat := by
      refine nth_mono hs ?_ hjF2
      have := Int.ceil_le_floor_add_one p1
      omega
    have hv1 : pctlInterp s p1 ≤ nth s ⌈p1⌉.toNat := by
      simp only [pctlInterp]
      nlinarith [mul_nonneg (by linarith : (0:ℚ) ≤ 1 - (p1 - (⌊p1⌋ : ℚ)))
        (sub_nonneg.2 hA1C1)]
    have hv2 : nth s ⌊p2⌋.toNat ≤ pctlInterp s p2 := by
      simp only [pctlInterp]
      nlinarith [mul_nonneg hfr2lo (sub_nonneg.2 hA2C2)]
    linarith

theorem pctl_singleton (a : ℚ) (as : List ℚ) (q : ℚ)
    (h1 : (List.insertionSort (fun x y : ℚ => x ≤ y) (a :: as)).length = 1) :
    pctl (a :: as) q =
      some (nth (List.insertionSort (fun x y : ℚ => x ≤ y) (a :: as)) 0) := by
  simp only [pctl, h1, if_pos]

theorem pctl_eq_interp (a : ℚ) (as : List ℚ) (q : ℚ)
    (h1 : (List.insertionSort (fun x y : ℚ => x ≤ y) (a :: as)).length ≠ 1) :
    pctl (a :: as) q =
      some (pctlInterp (List.insertionSort (fun x y : ℚ => x ≤ y) (a :: as))
        (q * (((List.insertionSort (fun x y : ℚ => x ≤ y) (a :: as)).length : ℚ) - 1))) := by
  simp only [pctl, h1, if_false]
  set s := List.insertionSort (fun x y : ℚ => x ≤ y) (a :: as) with hs
  set pos := q * ((s.length : ℚ) - 1) with hpos
  by_cases hlh : ⌊pos⌋ = ⌈pos⌉
  · rw [if_pos hlh]
    have hup : pos ≤ (⌈pos⌉ : ℚ) := Int.le_ceil pos
    have hdn : (⌊pos⌋ : ℚ) ≤ pos := Int.floor_le pos
    have hint : pos = (⌊pos⌋ : ℚ) := by
      rw [hlh] at hdn ⊢
      linarith
    have hfr : pos - (⌊pos⌋ : ℚ) = 0 := by rw [← hint]; ring
    simp only [pctlInterp, hfr, ← hlh]
    ring_nf
  · rw [if_neg hlh]
    simp only [pctlInterp]

theorem motion_p90_p10_nonneg {l : List ℚ} {m : ℚ}
    (h : motion_p90_p10 l = some m) : 0 ≤ m := by
  cases l with
  | nil => simp [motion_p90_p10, pctl] at h
  | cons a as =>
    have hsorted : (List.insertionSort (fun x y : ℚ => x ≤ y) (a :: as)).Pairwise
        (fun x y : ℚ => x ≤ y) := List.sorted_insertionSort _ _
    by_cases h1 : (List.insertionSort (fun x y : ℚ => x ≤ y) (a :: as)).length = 1
    · rw [motion_p90_p10, pctl_singleton a as _ h1, pctl_singleton a as _ h1] at h
      simp only [Option.some.injEq] at h
      rw [← h]
      simp
    · have hge : 1 ≤ (List.insertionSort (fun x y : ℚ => x ≤ y) (a :: as)).length := by
        have hp := List.perm_insertionSort (fun x y : ℚ => x ≤ y) (a :: as)
        have := hp.length_eq
        simp only [List.length_cons] at this
        omega
      have hge2 : 2 ≤ (List.insertionSort (fun x y : ℚ => x ≤ y) (a :: as)).length := by
        omega
      rw [motion_p90_p10, pctl_eq_interp a as _ h1, pctl_eq_interp a as _ h1] at h
      simp only [Option.some.injEq] at h
      set s := List.insertionSort (fun x y : ℚ => x ≤ y) (a :: as) with hs
      have hlenq : (1 : ℚ) ≤ (s.length : ℚ) - 1 := by
        have : (2 : ℚ) ≤ (s.length : ℚ) := by exact_mod_cast hge2
        linarith
      have hmono : pctlInterp s ((10 / 100) * ((s.length : ℚ) - 1)) ≤
          pctlInterp s ((90 / 100) * ((s.length : ℚ) - 1)) := by
        refine pctlInterp_mono hsorted ?_ ?_ ?_
        · nlinarith
        · nlinarith
        · nlinarith
      rw [← h]
      linarith

theorem pyRound3_nonneg {x : ℚ} (hx : 0 ≤ x) : 0 ≤ pyRound3 x := by
  have h0 : (0 : Int) ≤ ⌊x * 1000⌋ := Int.floor_nonneg.2 (by positivity)
  simp only [pyRound3]
  split_ifs with hc1 hc2 hc3 <;>
    refine div_nonneg ?_ (by norm_num) <;> exact_mod_cast (by omega : (0 : Int) ≤ _)

/-! ## Claim C10: emitted motion scores are non-negative -/

/-- C10: every Candidate emitted by build_candidates has a non-negative motion
score: pctl is monotone in the quantile over the fixed sorted center list, so
p90 >= p10 and the (half-even rounded) spread p90 - p10 is >= 0. -/
theorem C10_build_candidates_motion_nonneg
    (per : Int → Option Det) (durSec : Int) (c : Cand)
    (hc : c ∈ build_candidates per durSec) : 0 ≤ c.motion := by
  simp only [build_candidates] at hc
  by_cases hd : durSec ≤ 0
  · simp [hd] at hc
  · rw [if_neg hd] at hc
    obtain ⟨start, hstart, hsome⟩ := List.mem_filterMap.1 hc
    by_cases hlen : (scanWindow per start).length < HITS_MIN
    · simp [hlen] at hsome
    · rw [if_neg hlen] at hsome
      cases hm : motion_p90_p10 (scanWindow per start) with
      | none => rw [hm] at hsome; simp at hsome
      | some m =>
        rw [hm] at hsome
        simp only [Option.some.injEq] at hsome
        rw [← hsome]
        exact pyRound3_nonneg (motion_p90_p10_nonneg hm)

/-- Witness for C10 at a concrete per-second log: a session whose detector fires
on seconds 300..319 with a fixed valid bbox yields the single candidate
(300, 320, motion 0, 20 hits), and the theorem gives its motion >= 0. -/
theorem C10_build_candidates_motion_nonneg_witness :
    (⟨300, 320, 0, 20⟩ : Cand) ∈
      build_candidates
        (fun t => if 300 ≤ t ∧ t < 320 then some ⟨some 1, some [100, 50, 200, 150]⟩ else none)
        620 ∧
    (0 : ℚ) ≤ (⟨300, 320, 0, 20⟩ : Cand).motion :=
  ⟨by decide,
   C10_build_candidates_motion_nonneg
     (fun t => if 300 ≤ t ∧ t < 320 then some ⟨some 1, some [100, 50, 200, 150]⟩ else none)
     620 ⟨300, 320, 0, 20⟩ (by decide)⟩

/-! ## Lemmas: greedy admission invariants -/

theorem overlaps_symm (a b : Int × Int) : overlaps a b = overlaps b a := by
  simp [overlaps, Bool.or_comm]

theorem overlaps_self {w : Int × Int} (h : w.1 < w.2) : overlaps w w = true := by
  simp only [overlaps, Bool.or_self, Bool.not_eq_true', decide_eq_false_iff_not, not_le]
  omega

theorem emptyPick_inv : StInv emptyPick :=
  ⟨List.Pairwise.nil, by intro a ha; simp [emptyPick] at ha⟩

theorem StInv_push {st : PickState} (r' : PoolRow) (c' : String → Nat)
    (hchk : (st.wins r'.session_dir).any (fun x => overlaps (win r') x) = false)
    (h : StInv st) :
    StInv { out := st.out ++ [r'],
            wins := fun s => if s == r'.session_dir then st.wins s ++ [win r'] else st.wins s,
            cnts := c' } := by
  obtain ⟨hpw, hmem⟩ := h
  have hall : ∀ x ∈ st.wins r'.session_dir, overlaps (win r') x = false := by
    intro x hx
    by_contra hc
    have : (st.wins r'.session_dir).any (fun x => overlaps (win r') x) = true :=
      List.any_eq_true.2 ⟨x, hx, by revert hc; cases overlaps (win r') x <;> simp⟩
    rw [this] at hchk
    exact Bool.noConfusion hchk
  constructor
  · rw [NoOv, List.pairwise_append]
    refine ⟨hpw, List.pairwise_singleton _ _, ?_⟩
    intro a ha b hb hsess
    have hb1 : b = r' := by simpa using hb
    rw [hb1] at hsess ⊢
    have hwa : win a ∈ st.wins r'.session_dir := hsess ▸ hmem a ha
    have := hall (win a) hwa
    rw [overlaps_symm] at this
    exact this
  · intro a ha
    rcases List.mem_append.1 ha with h1 | h2
    · have := hmem a h1
      by_cases hs : a.session_dir = r'.session_dir
      · simp only [hs, beq_self_eq_true, if_pos]
        exact List.mem_append_left _ (hs ▸ this)
      · have : (a.session_dir == r'.session_dir) = false := beq_eq_false_iff_ne.2 hs
        simp only [this, Bool.false_eq_true, if_false]
        exact hmem a h1
    · have hb1 : a = r' := by simpa using h2
      subst hb1
      simp only [beq_self_eq_true, if_pos]
      exact List.mem_append_right _ (List.mem_singleton_self _)

theorem chooseGo_inv (total maxPer : Int) (l : List PoolRow) (st : PickState)
    (h : StInv st) : StInv (chooseGo total maxPer true l st) := by
  induction l generalizing st with
  | nil => simpa [chooseGo]
  | cons row rest ih =>
    rw [chooseGo]
    by_cases h1 : (st.out.length : Int) ≥ total
    · rw [if_pos h1]; exact h
    · rw [if_neg h1]
      by_cases h2 : (maxPer > 0 && ((st.cnts row.session_dir : Int) ≥ maxPer : Bool)) = true
      · simp only [h2, if_pos]; exact ih _ h
      · simp only [h2, Bool.false_eq_true, if_false]
        by_cases h3 : (st.wins row.session_dir).any (fun x => overlaps (win row) x) = true
        · simp only [h3, Bool.true_and, if_pos]
          exact ih _ h
        · have h3f : (st.wins row.session_dir).any (fun x => overlaps (win row) x) = false :=
            Bool.eq_false_iff.2 h3
          simp only [h3f, Bool.true_and, Bool.false_eq_true, if_false]
          exact ih _ (StInv_push row _ h3f h)

theorem bandGo_inv (reason : String) (quota maxPer : Int) (items : List PoolRow)
    (got : Int) (st : PickState) (h : StInv st) :
    StInv (bandGo reason quota maxPer true items got st) := by
  induction items generalizing got st with
  | nil => simpa [bandGo]
  | cons row rest ih =>
    rw [bandGo]
    by_cases h1 : got ≥ quota
    · rw [if_pos h1]; exact h
    · rw [if_neg h1]
      by_cases h2 : (maxPer > 0 && ((st.cnts row.session_dir : Int) ≥ maxPer : Bool)) = true
      · simp only [h2, if_pos]; exact ih _ _ h
      · simp only [h2, Bool.false_eq_true, if_false]
        by_cases h3 : (st.wins row.session_dir).any (fun x => overlaps (win row) x) = true
        · simp only [h3, Bool.true_and, if_pos]
          exact ih _ _ h
        · have h3f : (st.wins row.session_dir).any (fun x => overlaps (win row) x) = false :=
            Bool.eq_false_iff.2 h3
          simp only [h3f, Bool.true_and, Bool.false_eq_true, if_false]
          have := @StInv_push st ({ row with pick_reason := some reason }) (fun s =>
            if s == row.session_dir then st.cnts row.session_dir + 1 else st.cnts s) h3f h
          exact ih _ _ this

theorem chooseBandGo_inv (pool : List PoolRow) (sh : Nat → List PoolRow → List PoolRow)
    (maxPer : Int) (ranges : List RangeSpec) (k : Nat) (st : PickState)
    (h : StInv st) : StInv (chooseBandGo pool sh true maxPer ranges k st) := by
  induction ranges generalizing k st with
  | nil => simpa [chooseBandGo]
  | cons r rs ih =>
    rw [chooseBandGo]
    exact ih _ _ (bandGo_inv _ _ _ _ _ _ h)

theorem chooseHybridGo_inv (pool : List PoolRow) (sh : Nat → List PoolRow → List PoolRow)
    (maxPer : Int) (ranges : List RangeSpec) (k : Nat) (st : PickState)
    (h : StInv st) : StInv (chooseHybridGo pool sh true maxPer ranges k st) := by
  induction ranges generalizing k st with
  | nil => simpa [chooseHybridGo]
  | cons r rs ih =>
    rw [chooseHybridGo]
    by_cases he : (pool.filter fun x => in_range (x.motion.getD (-1)) r).isEmpty = true
    · rw [if_pos he]; exact ih _ _ h
    · rw [if_neg he]
      exact ih _ _ (bandGo_inv _ _ _ _ _ _ h)

/-! ## Claim C8: the non-overlap invariant -/

/-- C8: for every pool and every strategy, with the non-overlap flag enabled no
two admitted candidates of the same session have intersecting half-open
[start_abs, end_abs) windows: an overlapping candidate is rejected during the
greedy pass against the running per-session window list. -/
theorem C8_no_overlap_within_session
    (mode : PickMode) (sh : Nat → List PoolRow → List PoolRow)
    (pool : List PoolRow) (ranges : List RangeSpec) (total maxPer : Int) :
    NoOv (chooseByMode mode sh pool ranges total true maxPer) := by
  cases mode with
  | random => exact (chooseGo_inv total maxPer (sh 0 pool) emptyPick emptyPick_inv).1
  | motion =>
    exact (chooseGo_inv total maxPer (mtShuffle (sortByMotionDesc pool))
      emptyPick emptyPick_inv).1
  | band => exact (chooseBandGo_inv pool sh maxPer ranges 0 emptyPick emptyPick_inv).1
  | hybrid => exact (chooseHybridGo_inv pool sh maxPer ranges 0 emptyPick emptyPick_inv).1

/-! ## Lemmas: what the admission loops emit -/

theorem bandGo_spec (reason : String) (quota maxPer : Int) (noOverlap : Bool)
    (items : List PoolRow) (got : Int) (st : PickState) :
    ∃ seg, (bandGo reason quota maxPer noOverlap items got st).out = st.out ++ seg ∧
      seg.length ≤ (quota - got).toNat ∧
      ∀ x ∈ seg, x.pick_reason = some reason ∧
        ∃ y ∈ items, x = { y with pick_reason := some reason } := by
  induction items generalizing got st with
  | nil => exact ⟨[], by simp [bandGo], by simp, by simp⟩
  | cons row rest ih =>
    rw [bandGo]
    by_cases h1 : got ≥ quota
    · exact ⟨[], by simp [h1], by simp, by simp⟩
    · rw [if_neg h1]
      by_cases h2 : (maxPer > 0 && ((st.cnts row.session_dir : Int) ≥ maxPer : Bool)) = true
      · simp only [h2, if_pos]
        obtain ⟨seg, he, hl, hm⟩ := ih got st
        exact ⟨seg, he, hl, fun x hx => ⟨(hm x hx).1,
          (hm x hx).2.imp fun y hy => ⟨List.mem_cons_of_mem _ hy.1, hy.2⟩⟩⟩
      · simp only [h2, Bool.false_eq_true, if_false]
        by_cases h3 : (noOverlap && (st.wins row.session_dir).any
            (fun x => overlaps (win row) x)) = true
        · simp only [h3, if_pos]
          obtain ⟨seg, he, hl, hm⟩ := ih got st
          exact ⟨seg, he, hl, fun x hx => ⟨(hm x hx).1,
            (hm x hx).2.imp fun y hy => ⟨List.mem_cons_of_mem _ hy.1, hy.2⟩⟩⟩
        · simp only [h3, Bool.false_eq_true, if_false]
          obtain ⟨seg, he, hl, hm⟩ := ih (got + 1) _
          refine ⟨{ row with pick_reason := some reason } :: seg, ?_, ?_, ?_⟩
          · rw [he]
            simp
          · simp only [List.length_cons]
            omega
          · intro x hx
            rcases List.mem_cons.1 hx with hx1 | hx2
            · exact ⟨by rw [hx1], ⟨row, List.mem_cons_self _ _, hx1⟩⟩
            · exact ⟨(hm x hx2).1,
                (hm x hx2).2.imp fun y hy => ⟨List.mem_cons_of_mem _ hy.1, hy.2⟩⟩

theorem chooseGo_out_mem (total maxPer : Int) (noOverlap : Bool)
    (l : List PoolRow) (st : PickState) {x : PoolRow}
    (hx : x ∈ (chooseGo total maxPer noOverlap l st).out) :
    x ∈ st.out ∨ x ∈ l := by
  induction l generalizing st with
  | nil => left; simpa [chooseGo] using hx
  | cons row rest ih =>
    rw [chooseGo] at hx
    by_cases h1 : (st.out.length : Int) ≥ total
    · rw [if_pos h1] at hx; exact Or.inl hx
    · rw [if_neg h1] at hx
      by_cases h2 : (maxPer > 0 && ((st.cnts row.session_dir : Int) ≥ maxPer : Bool)) = true
      · simp only [h2, if_pos] at hx
        rcases ih _ hx with h | h
        · exact Or.inl h
        · exact Or.inr (List.mem_cons_of_mem _ h)
      · simp only [h2, Bool.false_eq_true, if_false] at hx
        by_cases h3 : (noOverlap && (st.wins row.session_dir).any
            (fun y => overlaps (win row) y)) = true
        · simp only [h3, if_pos] at hx
          rcases ih _ hx with h | h
          · exact Or.inl h
          · exact Or.inr (List.mem_cons_of_mem _ h)
        · simp only [h3, Bool.false_eq_true, if_false] at hx
          rcases ih _ hx with h | h
          · rcases List.mem_append.1 h with h4 | h4
            · exact Or.inl h4
            · exact Or.inr (List.mem_cons.2 (Or.inl (by simpa using h4)))
          · exact Or.inr (List.mem_cons_of_mem _ h)

theorem mem_insertDesc {x y : PoolRow} {l : List PoolRow} :
    x ∈ insertDesc y l ↔ x = y ∨ x ∈ l := by
  induction l with
  | nil => simp [insertDesc]
  | cons z zs ih =>
    by_cases h : motionKey z ≤ motionKey y
    · simp [insertDesc, h]
    · simp only [insertDesc, h, if_false]
      simp [ih]
      tauto

theorem mem_sortByMotionDesc {x : PoolRow} {l : List PoolRow} :
    x ∈ sortByMotionDesc l ↔ x ∈ l := by
  induction l with
  | nil => simp [sortByMotionDesc]
  | cons z zs ih => simp [sortByMotionDesc, mem_insertDesc, ih]

theorem mem_swapAt {x : α} {l : List α} {i j : Nat} (hx : x ∈ swapAt l i j) : x ∈ l := by
  rw [swapAt] at hx
  cases hi : l.get? i with
  | none => rw [hi] at hx; exact hx
  | some a =>
    cases hj : l.get? j with
    | none => rw [hi, hj] at hx; exact hx
    | some b =>
      rw [hi, hj] at hx
      rcases List.mem_or_eq_of_mem_set hx with h1 | h1
      · rcases List.mem_or_eq_of_mem_set h1 with h2 | h2
        · exact h2
        · exact h2 ▸ List.get?_mem hj
      · exact h1 ▸ List.get?_mem hi

theorem mem_mtShuffleGo {x : α} {l : List α} {i pos : Nat}
    (hx : x ∈ (mtShuffleGo i l pos).1) : x ∈ l := by
  induction i generalizing l pos with
  | zero => simpa [mtShuffleGo] using hx
  | succ i ih =>
    rw [mtShuffleGo] at hx
    exact mem_swapAt (ih hx)

theorem mem_mtShuffle {x : α} {l : List α} (hx : x ∈ mtShuffle l) : x ∈ l :=
  mem_mtShuffleGo hx

theorem bandGo_out_ref (reason : String) (quota maxPer : Int) (noOverlap : Bool)
    (items : List PoolRow) (got : Int) (st : PickState) {x : PoolRow}
    (hx : x ∈ (bandGo reason quota maxPer noOverlap items got st).out) :
    x ∈ st.out ∨ ∃ y ∈ items, likeRef x y := by
  obtain ⟨seg, he, _, hm⟩ := bandGo_spec reason quota maxPer noOverlap items got st
  rw [he] at hx
  rcases List.mem_append.1 hx with h | h
  · exact Or.inl h
  · obtain ⟨_, y, hy, hxy⟩ := hm x h
    exact Or.inr ⟨y, hy, by subst hxy; exact ⟨rfl, rfl, rfl, rfl⟩⟩

theorem chooseBandGo_out_ref (pool : List PoolRow) (sh : Nat → List PoolRow → List PoolRow)
    (noOverlap : Bool) (maxPer : Int) (ranges : List RangeSpec) (k : Nat) (st : PickState)
    (hsh : ∀ k l x, x ∈ sh k l → x ∈ l) {x : PoolRow}
    (hx : x ∈ (chooseBandGo pool sh noOverlap maxPer ranges k st).out) :
    x ∈ st.out ∨ ∃ y ∈ pool, likeRef x y := by
  induction ranges generalizing k st with
  | nil => left; simpa [chooseBandGo] using hx
  | cons r rs ih =>
    rw [chooseBandGo] at hx
    rcases ih _ _ hx with h | h
    · rcases bandGo_out_ref _ _ _ _ _ _ _ h with h1 | h1
      · exact Or.inl h1
      · obtain ⟨y, hy, href⟩ := h1
        exact Or.inr ⟨y, (List.mem_filter.1 (hsh _ _ _ hy)).1, href⟩
    · exact Or.inr h

theorem chooseHybridGo_out_ref (pool : List PoolRow) (sh : Nat → List PoolRow → List PoolRow)
    (noOverlap : Bool) (maxPer : Int) (ranges : List RangeSpec) (k : Nat) (st : PickState)
    (hsh : ∀ k l x, x ∈ sh k l → x ∈ l) {x : PoolRow}
    (hx : x ∈ (chooseHybridGo pool sh noOverlap maxPer ranges k st).out) :
    x ∈ st.out ∨ ∃ y ∈ pool, likeRef x y := by
  induction ranges generalizing k st with
  | nil => left; simpa [chooseHybridGo] using hx
  | cons r rs ih =>
    rw [chooseHybridGo] at hx
    by_cases he : (pool.filter fun z => in_range (z.motion.getD (-1)) r).isEmpty = true
    · rw [if_pos he] at hx
      exact ih _ _ hx
    · rw [if_neg he] at hx
      rcases ih _ _ hx with h | h
      · rcases bandGo_out_ref _ _ _ _ _ _ _ h with h1 | h1
        · exact Or.inl h1
        · obtain ⟨y, hy, href⟩ := h1
          have hy2 := hsh _ _ _ hy
          have hy3 := List.mem_of_mem_take hy2
          have hy4 := mem_sortByMotionDesc.1 hy3
          exact Or.inr ⟨y, (List.mem_filter.1 hy4).1, href⟩
      · exact Or.inr h

/-- Every row a strategy emits denotes (up to the added pick_reason tag) a row
of the pool it was given. -/
theorem chooseByMode_out_ref (mode : PickMode) (sh : Nat → List PoolRow → List PoolRow)
    (pool : List PoolRow) (ranges : List RangeSpec) (total maxPer : Int)
    (noOverlap : Bool) (hsh : ∀ k l x, x ∈ sh k l → x ∈ l) {x : PoolRow}
    (hx : x ∈ chooseByMode mode sh pool ranges total noOverlap maxPer) :
    ∃ y ∈ pool, likeRef x y := by
  cases mode with
  | random =>
    rcases chooseGo_out_mem _ _ _ _ _ hx with h | h
    · simp [emptyPick] at h
    · exact ⟨x, hsh _ _ _ h, ⟨rfl, rfl, rfl, rfl⟩⟩
  | motion =>
    rcases chooseGo_out_mem _ _ _ _ _ hx with h | h
    · simp [emptyPick] at h
    · exact ⟨x, mem_sortByMotionDesc.1 (mem_mtShuffle h), ⟨rfl, rfl, rfl, rfl⟩⟩
  | band =>
    rcases chooseBandGo_out_ref _ _ _ _ _ _ _ hsh hx with h | h
    · simp [emptyPick] at h
    · exact h
  | hybrid =>
    rcases chooseHybridGo_out_ref _ _ _ _ _ _ _ hsh hx with h | h
    · simp [emptyPick] at h
    · exact h

/-! ## Claim C3: band quotas and duplicate admissions -/

theorem chooseBandGo_quota (pool : List PoolRow) (sh : Nat → List PoolRow → List PoolRow)
    (noOverlap : Bool) (maxPer : Int) (ranges : List RangeSpec) (k : Nat) (st : PickState) :
    ∃ segs : List (List PoolRow),
      (chooseBandGo pool sh noOverlap maxPer ranges k st).out = st.out ++ segs.flatten ∧
      List.Forall₂ (fun (seg : List PoolRow) (r : RangeSpec) =>
        seg.length ≤ r.n.toNat ∧
          ∀ x ∈ seg, x.pick_reason = some ("band:" ++ r.label)) segs ranges := by
  induction ranges generalizing k st with
  | nil => exact ⟨[], by simp [chooseBandGo], List.Forall₂.nil⟩
  | cons r rs ih =>
    rw [chooseBandGo]
    obtain ⟨seg, he, hl, hm⟩ := bandGo_spec ("band:" ++ r.label) r.n maxPer noOverlap
      (sh k (pool.filter fun x => in_range (x.motion.getD (-1)) r)) 0 st
    obtain ⟨segs, he2, hf⟩ := ih (k + 1)
      (bandGo ("band:" ++ r.label) r.n maxPer noOverlap
        (sh k (pool.filter fun x => in_range (x.motion.getD (-1)) r)) 0 st)
    refine ⟨seg :: segs, ?_, ?_⟩
    · rw [he2, he]
      simp
    · refine List.Forall₂.cons ⟨?_, fun x hx => (hm x hx).1⟩ hf
      simpa using hl

/-- C3 counterexample: with bands (0..10, quota 1, label a) and (0..10, quota 1,
label b), non-overlap disabled and no per-session cap, a singleton pool (for
which every rng shuffle, Python's included, is the identity) is admitted by
both bands: the two emitted rows carry the same (_source_path, _source_index)
back-reference, so one pool row is admitted by two different bands. -/
theorem C3_counterexample_row_admitted_twice :
    (choose_band (fun _ l => l)
        [{ toRow := { start_abs := some 0, end_abs := some 20, motion := some 5 },
           source_path := "p", source_index := 0, session_dir := "s" }]
        [⟨0, 10, 1, "a"⟩, ⟨0, 10, 1, "b"⟩] false 0).map
      (fun r => (r.source_path, r.source_index)) = [("p", 0), ("p", 0)] := by
  decide

/-- C3 amended: each band admits at most max(quota, 0) rows (the output
decomposes band by band, every segment within its band's quota and tagged with
that band's label); but an admitted row stays in the pool, so with non-overlap
disabled a row whose motion lies in two bands can be admitted by both.  When
non-overlap is enabled and every pool row has a non-empty window, no
session-window pair (hence no pool row) is admitted twice, because a second
admission would overlap the first. -/
theorem C3_band_quota_and_duplicates
    (sh : Nat → List PoolRow → List PoolRow) (pool : List PoolRow)
    (ranges : List RangeSpec) (noOverlap : Bool) (maxPer : Int) :
    (∃ segs : List (List PoolRow),
      choose_band sh pool ranges noOverlap maxPer = segs.flatten ∧
      List.Forall₂ (fun (seg : List PoolRow) (r : RangeSpec) =>
        seg.length ≤ r.n.toNat ∧
          ∀ x ∈ seg, x.pick_reason = some ("band:" ++ r.label)) segs ranges) ∧
    ((∀ k l x, x ∈ sh k l → x ∈ l) → (∀ r ∈ pool, (win r).1 < (win r).2) →
      ((choose_band sh pool ranges true maxPer).map
        (fun r => (r.session_dir, win r))).Nodup) := by
  constructor
  · obtain ⟨segs, he, hf⟩ := chooseBandGo_quota pool sh noOverlap maxPer ranges 0 emptyPick
    exact ⟨segs, by simpa [emptyPick] using he, hf⟩
  · intro hsh hw
    have hno : NoOv (choose_band sh pool ranges true maxPer) :=
      (chooseBandGo_inv pool sh maxPer ranges 0 emptyPick emptyPick_inv).1
    have hmem : ∀ x ∈ choose_band sh pool ranges true maxPer, (win x).1 < (win x).2 := by
      intro x hx
      rcases chooseBandGo_out_ref pool sh true maxPer ranges 0 emptyPick hsh hx with h | h
      · simp [emptyPick] at h
      · obtain ⟨y, hy, _, _, _, hwin⟩ := h
        rw [hwin]
        exact hw y hy
    rw [List.Nodup, List.pairwise_map]
    refine (List.Pairwise.and_mem.1 hno).imp ?_
    rintro a b ⟨ha, hb, hrel⟩ heq
    have h1 : a.session_dir = b.session_dir := congrArg Prod.fst heq
    have h2 : win a = win b := congrArg Prod.snd heq
    have h3 := hrel h1
    rw [h2] at h3
    have h4 := hmem b hb
    rw [overlaps_self h4] at h3
    exact Bool.noConfusion h3

/-- Witness for C3's amended theorem: a two-band run over a singleton pool with
non-overlap enabled admits the row once; the decomposition and the Nodup
conclusion are checked at this instance. -/
theorem C3_band_quota_and_duplicates_witness :
    ((∀ k (l : List PoolRow) x, x ∈ (fun (_ : Nat) (l : List PoolRow) => l) k l → x ∈ l) ∧
     (∀ r ∈ [({ toRow := { start_abs := some 0, end_abs := some 20, motion := some 5 }, source_path := "p", source_index := 0, session_dir := "s" } : PoolRow)], (win r).1 < (win r).2)) ∧
    ((choose_band (fun _ l => l)
        [{ toRow := { start_abs := some 0, end_abs := some 20, motion := some 5 },
           source_path := "p", source_index := 0, session_dir := "s" }]
        [⟨0, 10, 1, "a"⟩, ⟨0, 10, 1, "b"⟩] true 0).map
      (fun r => (r.session_dir, win r))).Nodup :=
  ⟨⟨fun _ _ _ h => h, by decide⟩,
   (C3_band_quota_and_duplicates (fun _ l => l)
      [{ toRow := { start_abs := some 0, end_abs := some 20, motion := some 5 },
         source_path := "p", source_index := 0, session_dir := "s" }]
      [⟨0, 10, 1, "a"⟩, ⟨0, 10, 1, "b"⟩] true 0).2 (fun _ _ _ h => h) (by decide)⟩

/-! ## Claim C4: the motion strategy -/

theorem insertDesc_perm (x : PoolRow) (l : List PoolRow) :
    (insertDesc x l).Perm (x :: l) := by
  induction l with
  | nil => simp [insertDesc]
  | cons y ys ih =>
    by_cases h : motionKey y ≤ motionKey x
    · simp [insertDesc, h]
    · rw [insertDesc, if_neg h]
      exact (ih.cons y).trans (List.Perm.swap x y ys)

theorem sortByMotionDesc_perm (l : List PoolRow) : (sortByMotionDesc l).Perm l := by
  induction l with
  | nil => simp [sortByMotionDesc]
  | cons x xs ih => exact (insertDesc_perm x (sortByMotionDesc xs)).trans (ih.cons x)

theorem pairwise_insertDesc (x : PoolRow) (l : List PoolRow)
    (h : l.Pairwise fun a b => motionKey b ≤ motionKey a) :
    (insertDesc x l).Pairwise fun a b => motionKey b ≤ motionKey a := by
  induction l with
  | nil => simp [insertDesc]
  | cons y ys ih =>
    rcases List.pairwise_cons.1 h with ⟨hy, hys⟩
    by_cases hc : motionKey y ≤ motionKey x
    · rw [insertDesc, if_pos hc]
      refine List.pairwise_cons.2 ⟨?_, h⟩
      intro z hz
      rcases List.mem_cons.1 hz with hz1 | hz2
      · rw [hz1]; exact hc
      · exact le_trans (hy z hz2) hc
    · rw [insertDesc, if_neg hc]
      refine List.pairwise_cons.2 ⟨?_, ih hys⟩
      intro z hz
      rcases mem_insertDesc.1 hz with hz1 | hz2
      · rw [hz1]; exact le_of_not_le hc
      · exact hy z hz2

theorem sortByMotionDesc_sorted (l : List PoolRow) :
    (sortByMotionDesc l).Pairwise fun a b => motionKey b ≤ motionKey a := by
  induction l with
  | nil => simp [sortByMotionDesc]
  | cons x xs ih => exact pairwise_insertDesc x _ ih

/-- C4 counterexample: a pool of three rows with motions 30, 20, 10 (already in
descending order), total 2, non-overlap off, no per-session cap.  The claim
(ranking-only greedy) admits the rows with motions 30 and 20; choose_motion
shuffles the sorted pool with a fresh random.Random(0) — whose Fisher-Yates
pass on a 3-element list swaps the last two entries — and admits the rows with
motions 30 and 10 instead. -/
theorem C4_counterexample_not_ranking_only :
    (choose_motion
      [{ toRow := { start_abs := some 0, end_abs := some 20, motion := some 30 },
         source_path := "p", source_index := 0, session_dir := "s" },
       { toRow := { start_abs := some 100, end_abs := some 120, motion := some 20 },
         source_path := "p", source_index := 1, session_dir := "s" },
       { toRow := { start_abs := some 200, end_abs := some 220, motion := some 10 },
         source_path := "p", source_index := 2, session_dir := "s" }] 2 false 0).map
      (fun r => r.source_index) = [0, 2] ∧
    (choose_motion_spec
      [{ toRow := { start_abs := some 0, end_abs := some 20, motion := some 30 },
         source_path := "p", source_index := 0, session_dir := "s" },
       { toRow := { start_abs := some 100, end_abs := some 120, motion := some 20 },
         source_path := "p", source_index := 1, session_dir := "s" },
       { toRow := { start_abs := some 200, end_abs := some 220, motion := some 10 },
         source_path := "p", source_index := 2, session_dir := "s" }] 2 false 0).map
      (fun r => r.source_index) = [0, 1] := by
  refine ⟨by decide, by decide⟩

/-- C4 amended: choose_motion is deterministic and does sort the pool by motion
descending (a permutation, stable, ties by original order), but it is not
ranking-only: the sorted pool is then shuffled by a fresh fixed-seed
random.Random(0) before the single greedy left-to-right admission pass, so the
admitted set follows the shuffled order, not the ranking. -/
theorem C4_motion_sorts_then_shuffles
    (pool : List PoolRow) (total : Int) (noOverlap : Bool) (maxPer : Int) :
    choose_motion pool total noOverlap maxPer =
      choose_random mtShuffle (sortByMotionDesc pool) total noOverlap maxPer ∧
    (sortByMotionDesc pool).Perm pool ∧
    (sortByMotionDesc pool).Pairwise (fun a b => motionKey b ≤ motionKey a) :=
  ⟨rfl, sortByMotionDesc_perm pool, sortByMotionDesc_sorted pool⟩

/-! ## Lemmas: mark_picked grouping and rewriting -/

theorem chosenIdxs_cons (c : PoolRow) (rest : List PoolRow) (q : String) :
    chosenIdxs (c :: rest) q =
      (if (c.source_path == q) = true then [c.source_index] else []) ++ chosenIdxs rest q := by
  by_cases h : (c.source_path == q) = true
  · simp [chosenIdxs, List.filter_cons, h]
  · simp only [Bool.not_eq_true] at h
    simp [chosenIdxs, List.filter_cons, h]

theorem mem_keys_addIdx {q p : String} {i : Nat} {acc : List (String × List Nat)} :
    q ∈ (addIdx p i acc).map Prod.fst ↔ q ∈ acc.map Prod.fst ∨ q = p := by
  induction acc with
  | nil => simp [addIdx]
  | cons g rest ih =>
    obtain ⟨q0, is0⟩ := g
    by_cases h : (q0 == p) = true
    · have hq0 : q0 = p := by simpa using h
      subst hq0
      simp only [addIdx, h, if_pos]
      simp
      tauto
    · simp only [addIdx, h, Bool.false_eq_true, if_false]
      simp only [List.map_cons, List.mem_cons, ih]
      tauto

theorem nodup_keys_addIdx {p : String} {i : Nat} {acc : List (String × List Nat)}
    (h : (acc.map Prod.fst).Nodup) : ((addIdx p i acc).map Prod.fst).Nodup := by
  induction acc with
  | nil => simp [addIdx]
  | cons g rest ih =>
    obtain ⟨q0, is0⟩ := g
    simp only [List.map_cons, List.nodup_cons] at h
    by_cases hq : (q0 == p) = true
    · simp only [addIdx, hq, if_pos, List.map_cons, List.nodup_cons]
      exact h
    · simp only [addIdx, hq, Bool.false_eq_true, if_false, List.map_cons, List.nodup_cons]
      refine ⟨?_, ih h.2⟩
      intro hc
      rcases mem_keys_addIdx.1 hc with h1 | h1
      · exact h.1 h1
      · rw [h1] at hq
        simp at hq

theorem entry_addIdx {q p : String} {js : List Nat} {i : Nat}
    {acc : List (String × List Nat)} (hmem : (q, js) ∈ addIdx p i acc)
    (hnd : (acc.map Prod.fst).Nodup) :
    ((q, js) ∈ acc ∧ q ≠ p) ∨
      (q = p ∧ ∃ js1, (q, js1) ∈ acc ∧ js = js1 ++ [i]) ∨
      (q = p ∧ p ∉ acc.map Prod.fst ∧ js = [i]) := by
  induction acc with
  | nil =>
    right; right
    simp only [addIdx, List.mem_singleton, Prod.mk.injEq] at hmem
    exact ⟨hmem.1, by simp, hmem.2⟩
  | cons g rest ih =>
    obtain ⟨q0, is0⟩ := g
    simp only [List.map_cons, List.nodup_cons] at hnd
    by_cases hq : (q0 == p) = true
    · have hq0 : q0 = p := by simpa using hq
      subst hq0
      simp only [addIdx, hq, if_pos, List.mem_cons, Prod.mk.injEq] at hmem
      rcases hmem with ⟨h1, h2⟩ | h1
      · right; left
        exact ⟨h1, is0, by simp [h1], h2⟩
      · left
        refine ⟨List.mem_cons_of_mem _ h1, ?_⟩
        intro hqp
        subst hqp
        exact hnd.1 (List.mem_map.2 ⟨(q, js), h1, rfl⟩)
    · simp only [addIdx, hq, Bool.false_eq_true, if_false, List.mem_cons, Prod.mk.injEq] at hmem
      rcases hmem with ⟨h1, h2⟩ | h1
      · left
        refine ⟨List.mem_cons.2 (Or.inl (by simp [h1, h2])), ?_⟩
        intro hqp
        apply hq
        rw [← h1, hqp]
        simp
      · rcases ih h1 hnd.2 with ⟨ha, hb⟩ | ⟨ha, js1, hb, hc⟩ | ⟨ha, hb, hc⟩
        · exact Or.inl ⟨List.mem_cons_of_mem _ ha, hb⟩
        · exact Or.inr (Or.inl ⟨ha, js1, List.mem_cons_of_mem _ hb, hc⟩)
        · refine Or.inr (Or.inr ⟨ha, ?_, hc⟩)
          simp only [List.map_cons, List.mem_cons]
          rintro (h2 | h2)
          · rw [← h2] at hq; simp at hq
          · exact hb h2

theorem groupFold_spec (chosen : List PoolRow) (acc : List (String × List Nat))
    (hnd : (acc.map Prod.fst).Nodup) :
    (((chosen.foldl (fun a c => addIdx c.source_path c.source_index a) acc).map
        Prod.fst).Nodup) ∧
    (∀ q, q ∈ (chosen.foldl (fun a c => addIdx c.source_path c.source_index a) acc).map
        Prod.fst ↔ q ∈ acc.map Prod.fst ∨ q ∈ chosen.map PoolRow.source_path) ∧
    (∀ q js, (q, js) ∈ chosen.foldl (fun a c => addIdx c.source_path c.source_index a) acc →
      (∃ js0, (q, js0) ∈ acc ∧ js = js0 ++ chosenIdxs chosen q) ∨
        (q ∉ acc.map Prod.fst ∧ js = chosenIdxs chosen q)) := by
  induction chosen generalizing acc with
  | nil =>
    refine ⟨hnd, by simp, ?_⟩
    intro q js hjs
    exact Or.inl ⟨js, hjs, by simp [chosenIdxs]⟩
  | cons c rest ih =>
    obtain ⟨iha, ihb, ihc⟩ := ih (addIdx c.source_path c.source_index acc)
      (nodup_keys_addIdx hnd)
    refine ⟨iha, ?_, ?_⟩
    · intro q
      rw [List.foldl_cons, ihb q, mem_keys_addIdx]
      simp only [List.map_cons, List.mem_cons]
      tauto
    · intro q js hjs
      rw [List.foldl_cons] at hjs
      rcases ihc q js hjs with ⟨js0, hj0, hje⟩ | ⟨hnk, hje⟩
      · rcases entry_addIdx hj0 hnd with ⟨ha, hb⟩ | ⟨ha, js1, hb, hc⟩ | ⟨ha, hb, hc⟩
        · refine Or.inl ⟨js0, ha, ?_⟩
          rw [hje, chosenIdxs_cons]
          have : (c.source_path == q) = false := by
            simp only [beq_eq_false_iff_ne, ne_eq]
            intro h
            exact hb h.symm
          rw [this]
          simp
        · refine Or.inl ⟨js1, hb, ?_⟩
          rw [hje, hc, chosenIdxs_cons]
          have : (c.source_path == q) = true := by simp [ha]
          rw [this]
          simp
        · refine Or.inr ⟨by rw [ha]; exact hb, ?_⟩
          rw [hje, hc, chosenIdxs_cons]
          have : (c.source_path == q) = true := by simp [ha]
          rw [this]
          simp
      · have hnk2 : q ∉ acc.map Prod.fst ∧ q ≠ c.source_path := by
          constructor
          · intro h; exact hnk (mem_keys_addIdx.2 (Or.inl h))
          · intro h; exact hnk (mem_keys_addIdx.2 (Or.inr h))
        refine Or.inr ⟨hnk2.1, ?_⟩
        rw [hje, chosenIdxs_cons]
        have : (c.source_path == q) = false := by
          simp only [beq_eq_false_iff_ne, ne_eq]
          intro h
          exact hnk2.2 h.symm
        rw [this]
        simp

theorem markRows_length (rows : List Row) (idxs : List Nat) (ts : String) :
    (markRows rows idxs ts).length = rows.length := by
  simp [markRows]

theorem markRows_get? (rows : List Row) (idxs : List Nat) (ts : String) (i : Nat) :
    (markRows rows idxs ts).get? i =
      (rows.get? i).map fun r => if i ∈ idxs then markRow r ts else r := by
  simp only [markRows, List.get?_map, List.enum_get?]
  cases rows.get? i <;> simp

theorem mem_chosenIdxs {chosen : List PoolRow} {p : String} {i : Nat} :
    i ∈ chosenIdxs chosen p ↔ chosenHas chosen p i = true := by
  simp only [chosenIdxs, chosenHas, List.mem_map, List.mem_filter, List.any_eq_true,
    Bool.and_eq_true, beq_iff_eq]
  constructor
  · rintro ⟨c, ⟨hc, hp⟩, hi⟩
    exact ⟨c, hc, hp, hi⟩
  · rintro ⟨c, hc, hp, hi⟩
    exact ⟨c, ⟨hc, hp⟩, hi⟩

/-! ## Claim C7: the shape of the mark_picked rewrite -/

/-- C7: marking a chosen batch rewrites each affected ledger exactly once (the
write list has pairwise-distinct paths, and a path is written iff some chosen
row came from it); each write preserves the ledger's row count and order,
leaves non-chosen rows byte-identical, and changes a chosen row only by setting
picked_at to the batch timestamp and pick_id to that timestamp with ':' and '-'
removed (the same pair for the whole batch). -/
theorem C7_mark_picked_rewrites (fs : String → List Row) (chosen : List PoolRow)
    (ts : String) :
    ((mark_picked fs chosen ts).map Prod.fst).Nodup ∧
    (∀ p, p ∈ (mark_picked fs chosen ts).map Prod.fst ↔
      p ∈ chosen.map PoolRow.source_path) ∧
    (∀ w ∈ mark_picked fs chosen ts,
      w.2.length = (fs w.1).length ∧
      ∀ i r, (fs w.1).get? i = some r →
        w.2.get? i = some (if chosenHas chosen w.1 i = true then markRow r ts else r)) := by
  obtain ⟨ha, hb, hc⟩ := groupFold_spec chosen [] (by simp)
  have hkeys : (mark_picked fs chosen ts).map Prod.fst =
      (groupByFile chosen).map Prod.fst := by
    simp [mark_picked, List.map_map, Function.comp]
  refine ⟨?_, ?_, ?_⟩
  · rw [hkeys]; exact ha
  · intro p
    rw [hkeys]
    have := hb p
    simpa using this
  · intro w hw
    obtain ⟨g, hg, hge⟩ := List.mem_map.1 hw
    have hjs : g.2 = chosenIdxs chosen g.1 := by
      rcases hc g.1 g.2 (by rw [← Prod.mk.eta (p := g)] at hg; exact hg) with ⟨js0, h0, _⟩ | ⟨_, h⟩
      · simp at h0
      · exact h
    constructor
    · rw [← hge]
      exact markRows_length _ _ _
    · intro i r hr
      rw [← hge]
      simp only
      rw [markRows_get?, hjs]
      rw [← hge] at hr
      simp only at hr
      rw [hr]
      simp only [Option.map_some']
      by_cases hi : chosenHas chosen g.1 i = true
      · rw [if_pos (mem_chosenIdxs.2 hi), if_pos hi]
      · rw [if_neg (fun hmem => hi (mem_chosenIdxs.1 hmem)), if_neg hi]

/-- Witness for C7 at a concrete store: one ledger "p" with two rows, a batch
choosing line 1 with timestamp "2025-01-02T03:04:05"; the single write keeps
row 0 unchanged and marks row 1 with picked_at and the punctuation-stripped
pick_id. -/
theorem C7_mark_picked_rewrites_witness :
    (("p", [({} : Row), markRow { motion := some 1 } "2025-01-02T03:04:05"]) ∈ mark_picked (fun p => if p == "p" then [{}, { motion := some 1 }] else []) [{ toRow := {}, source_path := "p", source_index := 1, session_dir := "s" }] "2025-01-02T03:04:05") ∧
    (((fun p => if p == "p" then [({} : Row), { motion := some 1 }] else []) "p").get? 1 = some { motion := some 1 }) ∧
    ([({} : Row), markRow { motion := some 1 } "2025-01-02T03:04:05"].get? 1 = some (if chosenHas [{ toRow := {}, source_path := "p", source_index := 1, session_dir := "s" }] "p" 1 = true then markRow { motion := some 1 } "2025-01-02T03:04:05" else { motion := some 1 })) :=
  ⟨by decide, by decide,
   ((C7_mark_picked_rewrites
      (fun p => if p == "p" then [{}, { motion := some 1 }] else [])
      [{ toRow := {}, source_path := "p", source_index := 1, session_dir := "s" }]
      "2025-01-02T03:04:05").2.2
      ("p", [({} : Row), markRow { motion := some 1 } "2025-01-02T03:04:05"])
      (by decide)).2 1 { motion := some 1 } (by decide)⟩

/-! ## Claim C1: picked rows are permanently excluded -/

theorem mem_collectFile {path sd : String} {skip : Bool} {rows : List Row} {x : PoolRow}
    (hx : x ∈ collectFile path sd skip rows) :
    x.source_path = path ∧
      ∃ row, rows.get? x.source_index = some row ∧ truthyStr row.picked_at = false := by
  obtain ⟨pr, hpr, heq⟩ := List.mem_filterMap.1 hx
  obtain ⟨i, row⟩ := pr
  by_cases h1 : truthyStr row.picked_at = true
  · simp [h1] at heq
  · have h1f : truthyStr row.picked_at = false := Bool.eq_false_iff.2 h1
    rw [if_neg (by rw [h1f]; exact Bool.false_ne_true)] at heq
    by_cases h2 : (skip && truthyStr row.video_id) = true
    · simp [h2] at heq
    · rw [if_neg h2] at heq
      by_cases h3 : (row.start_abs.isNone || row.end_abs.isNone) = true
      · simp [h3] at heq
      · rw [if_neg h3] at heq
        have hx2 := heq
        simp only [Option.some.injEq] at hx2
        have hpath : x.source_path = path := by rw [← hx2]
        have hidx : x.source_index = i := by rw [← hx2]
        refine ⟨hpath, row, ?_, h1f⟩
        rw [hidx]
        exact List.mk_mem_enum_iff_get?.mp hpr

theorem mem_collect_candidates {fs : String → List Row} {paths : List String}
    {sess : String → String} {skip : Bool} {x : PoolRow}
    (hx : x ∈ collect_candidates fs paths sess skip) :
    ∃ p ∈ paths, x ∈ collectFile p (sess p) skip (fs p) := by
  obtain ⟨p, hp, hxp⟩ := List.mem_flatMap.1 hx
  exact ⟨p, hp, hxp⟩

/-- C1: after a run has marked its chosen rows with a non-empty picked_at
timestamp, a second run of the picker over the rewritten ledgers — any
strategy, any shuffler, any flags and motion bounds — never admits a row with
the back-reference (source path, line index) of a marked row:
collect_candidates drops every row with truthy picked_at from the pool, and
every strategy only emits rows denoting pool members. -/
theorem C1_marked_rows_never_reselected
    (fs : String → List Row) (paths : List String) (sess : String → String)
    (skipUploaded : Bool) (minM maxM : ℚ) (mode : PickMode)
    (sh : Nat → List PoolRow → List PoolRow) (ranges : List RangeSpec)
    (total maxPer : Int) (noOverlap : Bool) (chosen : List PoolRow) (ts : String)
    (hts : ts ≠ "")
    (hsh : ∀ k l x, x ∈ sh k l → x ∈ l)
    (hidx : ∀ c ∈ chosen, c.source_index < (fs c.source_path).length) :
    ∀ r ∈ chooseByMode mode sh
        (poolMotionFilter
          (collect_candidates (applyMark fs chosen ts) paths sess skipUploaded) minM maxM)
        ranges total noOverlap maxPer,
      ∀ c ∈ chosen, ¬(r.source_path = c.source_path ∧ r.source_index = c.source_index) := by
  intro r hr c hc ⟨hpath, hindex⟩
  obtain ⟨y, hy, hyp, hyi, _, _⟩ := chooseByMode_out_ref mode sh _ ranges total maxPer
    noOverlap hsh hr
  have hy2 : y ∈ collect_candidates (applyMark fs chosen ts) paths sess skipUploaded :=
    (List.mem_filter.1 hy).1
  obtain ⟨p, _, hyf⟩ := mem_collect_candidates hy2
  obtain ⟨hyp2, row, hrow, hnt⟩ := mem_collectFile hyf
  -- the row collect saw at (p, y.source_index) is the marked row
  have hpc : p = c.source_path := by rw [← hyp2, ← hyp, hpath]
  have hic : y.source_index = c.source_index := by rw [← hyi, hindex]
  rw [hpc, hic] at hrow
  have hlt := hidx c hc
  have hmark : (applyMark fs chosen ts c.source_path).get? c.source_index =
      some (markRow ((fs c.source_path).get ⟨c.source_index, hlt⟩) ts) := by
    rw [applyMark, markRows_get?, List.get?_eq_get hlt]
    simp only [Option.map_some']
    rw [if_pos]
    exact mem_chosenIdxs.2 (by
      simp only [chosenHas, List.any_eq_true, Bool.and_eq_true, beq_iff_eq]
      exact ⟨c, hc, rfl, rfl⟩)
  rw [hmark] at hrow
  simp only [Option.some.injEq] at hrow
  rw [← hrow] at hnt
  simp only [markRow, truthyStr] at hnt
  rw [Bool.not_eq_eq_eq_not] at hnt
  simp only [Bool.not_false] at hnt
  exact hts (by simpa using hnt)

/-- Witness for C1: one ledger "p" with one unpicked row; after a batch marks
line 0 with timestamp "T", a second random-mode run over the rewritten store
admits nothing pointing at the marked line. -/
theorem C1_marked_rows_never_reselected_witness :
    (("T" : String) ≠ "") ∧
    (∀ c ∈ [({ toRow := {}, source_path := "p", source_index := 0, session_dir := "s" } : PoolRow)], c.source_index < ((fun p => if p == "p" then [({ start_abs := some 0, end_abs := some 20 } : Row)] else []) c.source_path).length) ∧
    (∀ r ∈ chooseByMode PickMode.random (fun _ l => l)
        (poolMotionFilter
          (collect_candidates
            (applyMark (fun p => if p == "p" then [({ start_abs := some 0, end_abs := some 20 } : Row)] else []) [{ toRow := {}, source_path := "p", source_index := 0, session_dir := "s" }] "T")
            ["p"] (fun _ => "s") true) (-1000) 1000)
        [] 8 false 2,
      ∀ c ∈ [({ toRow := {}, source_path := "p", source_index := 0, session_dir := "s" } : PoolRow)], ¬(r.source_path = c.source_path ∧ r.source_index = c.source_index)) :=
  ⟨by decide, by decide,
   C1_marked_rows_never_reselected
     (fun p => if p == "p" then [({ start_abs := some 0, end_abs := some 20 } : Row)] else [])
     ["p"] (fun _ => "s") true (-1000) 1000 PickMode.random (fun _ l => l) [] 8 2 false
     [{ toRow := {}, source_path := "p", source_index := 0, session_dir := "s" }] "T"
     (by decide) (fun _ _ _ h => h) (by decide)⟩
